import Mathlib

/-!
Shallow embedding of the data-transformation core of the survival-dashboard
repository (the utility module: stage-ordinal encoding, upload dispatch,
CSV parsing/export, risk classification, id-column detection, survival
lookup).  JavaScript numbers are modelled as rationals (`ℚ`), with NaN and
the infinities carried explicitly by `JSNum`; strings are lists of
characters.  Every definition is translated from the TypeScript source,
except the few `Spec`-suffixed definitions that restate the specification's
wording for comparison.
-/

/-- Strings are modelled as lists of characters. -/
abbrev Str := List Char

/-- Risk bands produced by `classifyRisk` (the source's string literals
`'Low' | 'Intermediate' | 'High'`). -/
inductive RiskGroup where
  | low
  | intermediate
  | high
deriving DecidableEq, Repr

/-- The optional reference quantiles `{ q33?: number; q66?: number }`. -/
structure RiskRef where
  q33 : Option ℚ
  q66 : Option ℚ
deriving DecidableEq, Repr

/-- Result record `{ group, threshold }` of `classifyRisk`. -/
structure RiskResult where
  group : Option RiskGroup
  threshold : Option ℚ
deriving DecidableEq, Repr

/-- Embedding of `classifyRisk` (survival-utils): absent reference or an
undefined threshold degrades to `{group: null, threshold: null}`; otherwise
the score is compared against `q33` and `q66` with inclusive upper bounds. -/
def classifyRisk (score : ℚ) (riskRef : Option RiskRef) : RiskResult :=
  match riskRef with
  | none => ⟨none, none⟩
  | some r =>
    match r.q33, r.q66 with
    | some q33, some q66 =>
      if score ≤ q33 then ⟨some .low, some q33⟩
      else if score ≤ q66 then ⟨some .intermediate, some q66⟩
      else ⟨some .high, some q66⟩
    | _, _ => ⟨none, none⟩

/-- The fixed candidate list of `detectIdColumn`, in source order. -/
def idCandidates : List Str :=
  ["Sample".toList, "Patient_ID".toList, "patient_id".toList,
   "PatientID".toList, "id".toList, "ID".toList]

/-- Embedding of `detectIdColumn`: return the first candidate contained in
`columns`, else `none`. -/
def detectIdColumn (columns : List Str) : Option Str :=
  idCandidates.find? (fun c => columns.contains c)

/-- One `{ time, probability }` sample of a survival curve. -/
structure Sample where
  time : ℚ
  probability : ℚ
deriving DecidableEq, Repr

/-- Embedding of `getSurvivalAtTime`: empty data yields 1; otherwise the
source loop scans from the last index downward and returns the first sample
whose time is at most the target, falling back to the first sample. -/
def getSurvivalAtTime (survivalData : List Sample) (targetTime : ℚ) : ℚ :=
  match survivalData with
  | [] => 1
  | first :: _ =>
    match survivalData.reverse.find? (fun s => s.time ≤ targetTime) with
    | some s => s.probability
    | none => first.probability

/-- Restatement of the specification's wording for the survival query: the
probability of the last sample (in sequence order) whose time is ≤ the
target; the first sample's probability when none qualifies; 1 on empty. -/
def getSurvivalSpec (survivalData : List Sample) (targetTime : ℚ) : ℚ :=
  match (survivalData.filter (fun s => s.time ≤ targetTime)).getLast? with
  | some s => s.probability
  | none =>
    match survivalData with
    | [] => 1
    | first :: _ => first.probability

/-- Samples are in non-decreasing time order. -/
def TimeSorted (survivalData : List Sample) : Prop :=
  List.Chain' (fun a b => a.time ≤ b.time) survivalData

/-- Running example curve from the specification:
`[(0,1.0),(30,0.9),(60,0.8)]`. -/
def exampleCurve : List Sample := [⟨0, 1⟩, ⟨30, 9/10⟩, ⟨60, 4/5⟩]

/-- The first match of `find?` is the head of the filtered list. -/
theorem find?_eq_head?_filter {α : Type} (p : α → Bool) (l : List α) :
    l.find? p = (l.filter p).head? := by
  induction l with
  | nil => rfl
  | cons a l ih =>
    rw [List.find?_cons, List.filter_cons]
    cases h : p a
    · exact ih
    · rfl

/-- Finding from the end of a list agrees with the last filtered element. -/
theorem reverse_find?_eq_filter_getLast? {α : Type} (p : α → Bool) (l : List α) :
    l.reverse.find? p = (l.filter p).getLast? := by
  rw [find?_eq_head?_filter, List.filter_reverse, List.head?_reverse]

/-- In a time-sorted curve the head's time bounds every later sample's time. -/
theorem timeSorted_head_le {f : Sample} :
    ∀ {rest : List Sample}, TimeSorted (f :: rest) → ∀ s ∈ rest, f.time ≤ s.time := by
  intro rest
  induction rest generalizing f with
  | nil => intro _ s hs; cases hs
  | cons b bs ih =>
    intro h s hs
    have hfb : f.time ≤ b.time := (List.chain'_cons.mp h).1
    have hrest : TimeSorted (b :: bs) := (List.chain'_cons.mp h).2
    rcases List.mem_cons.mp hs with rfl | hs
    · exact hfb
    · exact le_trans hfb (ih hrest s hs)

/-- C2: `getSurvivalAtTime` is a step-function (last-observation-carried-forward)
lookup: it returns the probability of the last sample whose time is ≤ the target
time; when the target precedes the first sample of a time-ordered curve it
returns the first sample's probability; an empty curve yields 1.  On the curve
`[(0,1),(30,0.9),(60,0.8)]` it returns 0.9 at t = 45 and 1 at t = -5. -/
theorem getSurvivalAtTime_claim :
    (∀ (l : List Sample) (t : ℚ), getSurvivalAtTime l t = getSurvivalSpec l t)
    ∧ (∀ (l : List Sample) (t : ℚ) (f : Sample), TimeSorted l → l.head? = some f →
        t < f.time → getSurvivalAtTime l t = f.probability)
    ∧ (∀ t : ℚ, getSurvivalAtTime [] t = 1)
    ∧ getSurvivalAtTime exampleCurve 45 = 9/10
    ∧ getSurvivalAtTime exampleCurve (-5) = 1 := by
  have h60 : (decide ((60:ℚ) ≤ 45)) = false := by norm_num
  have h30 : (decide ((30:ℚ) ≤ 45)) = true := by norm_num
  have h0 : (decide ((0:ℚ) ≤ -5)) = false := by norm_num
  have h30n : (decide ((30:ℚ) ≤ -5)) = false := by norm_num
  have h60n : (decide ((60:ℚ) ≤ -5)) = false := by norm_num
  refine ⟨?_, ?_, fun _ => rfl, ?_, ?_⟩
  · intro l t
    cases l with
    | nil => rfl
    | cons f rest =>
      simp only [getSurvivalAtTime, getSurvivalSpec, reverse_find?_eq_filter_getLast?]
  · intro l t f hsort hhead hlt
    cases l with
    | nil => simp at hhead
    | cons f' rest =>
      have hf : f' = f := by simpa using hhead
      subst hf
      have hnone : (f' :: rest).reverse.find? (fun s => s.time ≤ t) = none := by
        apply List.find?_eq_none.mpr
        intro x hx
        simp only [List.mem_reverse] at hx
        simp only [decide_eq_true_eq]
        rcases List.mem_cons.mp hx with rfl | hx
        · exact not_le.mpr hlt
        · intro hc
          have h1 : f'.time ≤ x.time := timeSorted_head_le hsort x hx
          have : f'.time ≤ t := le_trans h1 hc
          exact absurd this (not_le.mpr hlt)
      simp only [getSurvivalAtTime]
      rw [hnone]
  · simp [getSurvivalAtTime, exampleCurve, List.find?, h60, h30]
  · have h50 : (decide ((5:ℚ) ≤ 0)) = false := by norm_num
    simp [getSurvivalAtTime, exampleCurve, List.find?, h0, h30n, h60n, h50]

/-- Witness for C2 at the concrete curve of the specification. -/
theorem getSurvivalAtTime_claim_witness :
    getSurvivalAtTime exampleCurve (-5) = (⟨0, 1⟩ : Sample).probability :=
  getSurvivalAtTime_claim.2.1 exampleCurve (-5) ⟨0, 1⟩
    (by
      unfold TimeSorted exampleCurve
      rw [List.chain'_cons, List.chain'_cons]
      exact ⟨by norm_num, by norm_num, List.chain'_singleton _⟩)
    rfl
    (by norm_num)

/-- C1 counterexample: with coinciding thresholds q33 = q66 = 0 the score
s = 0 = q66 is classified Low, not Intermediate as the claim asserts. -/
theorem classifyRisk_eq_thresholds_cex :
    classifyRisk 0 (some ⟨some 0, some 0⟩) = ⟨some RiskGroup.low, some 0⟩
    ∧ (classifyRisk 0 (some ⟨some 0, some 0⟩)).group ≠ some RiskGroup.intermediate := by
  decide

/-- C1 (amended): with both thresholds defined and q33 ≤ q66 the band is one
of Low/Intermediate/High following the inclusive if-chain (s ≤ q33 → Low with
threshold q33; else s ≤ q66 → Intermediate with threshold q66; else High with
threshold q66); s = q33 yields Low, and s = q66 yields Intermediate provided
q33 < q66 (when q33 = q66 the s = q66 tie already falls in the Low branch). -/
theorem classifyRisk_bands (s q33 q66 : ℚ) (h : q33 ≤ q66) :
    ((classifyRisk s (some ⟨some q33, some q66⟩)).group = some RiskGroup.low
      ∨ (classifyRisk s (some ⟨some q33, some q66⟩)).group = some RiskGroup.intermediate
      ∨ (classifyRisk s (some ⟨some q33, some q66⟩)).group = some RiskGroup.high)
    ∧ (s ≤ q33 →
        classifyRisk s (some ⟨some q33, some q66⟩) = ⟨some RiskGroup.low, some q33⟩)
    ∧ (¬ s ≤ q33 → s ≤ q66 →
        classifyRisk s (some ⟨some q33, some q66⟩) = ⟨some RiskGroup.intermediate, some q66⟩)
    ∧ (¬ s ≤ q66 →
        classifyRisk s (some ⟨some q33, some q66⟩) = ⟨some RiskGroup.high, some q66⟩)
    ∧ (s = q33 → (classifyRisk s (some ⟨some q33, some q66⟩)).group = some RiskGroup.low)
    ∧ (q33 < q66 → s = q66 →
        (classifyRisk s (some ⟨some q33, some q66⟩)).group = some RiskGroup.intermediate) := by
  refine ⟨?_, ?_, ?_, ?_, ?_, ?_⟩
  · by_cases h1 : s ≤ q33
    · left; simp [classifyRisk, h1]
    · by_cases h2 : s ≤ q66
      · right; left; simp [classifyRisk, h1, h2]
      · right; right; simp [classifyRisk, h1, h2]
  · intro h1; simp [classifyRisk, h1]
  · intro h1 h2; simp [classifyRisk, h1, h2]
  · intro h2
    have h1 : ¬ s ≤ q33 := fun hs => h2 (le_trans hs h)
    simp [classifyRisk, h1, h2]
  · intro hs; simp [classifyRisk, le_of_eq hs]
  · intro hlt hse
    have h1 : ¬ s ≤ q33 := by rw [hse]; exact not_le.mpr hlt
    have h2 : s ≤ q66 := le_of_eq hse
    simp [classifyRisk, h1, h2]

/-- Witness for C1 at s = q66 = 2/3, q33 = 1/3. -/
theorem classifyRisk_bands_witness :
    (classifyRisk (2/3) (some ⟨some (1/3), some (2/3)⟩)).group
      = some RiskGroup.intermediate :=
  (classifyRisk_bands (2/3) (1/3) (2/3) (by norm_num)).2.2.2.2.2 (by norm_num) rfl

/-- C7: a missing reference, or a reference with either quantile undefined,
classifies to `{group: null, threshold: null}` (no error). -/
theorem classifyRisk_degrades (s : ℚ) (ref : Option RiskRef)
    (h : ref = none ∨ ∃ r, ref = some r ∧ (r.q33 = none ∨ r.q66 = none)) :
    classifyRisk s ref = ⟨none, none⟩ := by
  rcases h with rfl | ⟨r, rfl, hr⟩
  · rfl
  · rcases r with ⟨q33, q66⟩
    rcases hr with h | h
    · simp only at h
      subst h
      cases q66 <;> rfl
    · simp only at h
      subst h
      cases q33 <;> rfl

/-- Witness for C7 at a missing reference. -/
theorem classifyRisk_degrades_witness :
    classifyRisk 1 none = ⟨none, none⟩ :=
  classifyRisk_degrades 1 none (Or.inl rfl)

/-- C9: `detectIdColumn` returns the first candidate of the fixed priority
list `[Sample, Patient_ID, patient_id, PatientID, id, ID]` present in the
column list (the head of the filtered candidate list), `none` when no
candidate occurs, and any non-null result is an element of the input. -/
theorem detectIdColumn_claim :
    (∀ cols : List Str, detectIdColumn cols
        = (idCandidates.filter (fun c => cols.contains c)).head?)
    ∧ (∀ (cols : List Str) (c : Str), detectIdColumn cols = some c → c ∈ cols)
    ∧ (∀ cols : List Str, detectIdColumn cols = none ↔ ∀ c ∈ idCandidates, c ∉ cols)
    ∧ detectIdColumn ["Name".toList, "Sample".toList, "Age".toList] = some "Sample".toList
    ∧ detectIdColumn ["Name".toList, "Age".toList] = none := by
  refine ⟨?_, ?_, ?_, by decide, by decide⟩
  · intro cols; exact find?_eq_head?_filter _ _
  · intro cols c hc
    have h2 := List.find?_some hc
    simpa using h2
  · intro cols
    unfold detectIdColumn
    rw [List.find?_eq_none]
    simp

/-- Witness for C9: the detected column is an element of the input list. -/
theorem detectIdColumn_claim_witness :
    "Sample".toList ∈ ["Name".toList, "Sample".toList, "Age".toList] :=
  detectIdColumn_claim.2.1 _ _ (by decide)

/-- Model of the JS whitespace class (the code points trimmed by
`String.prototype.trim` and matched by the pattern class `\s`). -/
def jsWhitespace (c : Char) : Bool :=
  [' ', '\t', '\n', '\r', '\x0b', '\x0c',
   Char.ofNat 0x00a0, Char.ofNat 0x1680, Char.ofNat 0x2000, Char.ofNat 0x2001,
   Char.ofNat 0x2002, Char.ofNat 0x2003, Char.ofNat 0x2004, Char.ofNat 0x2005,
   Char.ofNat 0x2006, Char.ofNat 0x2007, Char.ofNat 0x2008, Char.ofNat 0x2009,
   Char.ofNat 0x200a, Char.ofNat 0x2028, Char.ofNat 0x2029, Char.ofNat 0x202f,
   Char.ofNat 0x205f, Char.ofNat 0x3000, Char.ofNat 0xfeff].contains c

/-- Model of `String.prototype.trim`: strip whitespace from both ends. -/
def jsTrim (l : Str) : Str :=
  ((l.dropWhile jsWhitespace).reverse.dropWhile jsWhitespace).reverse

/-- Model of `toUpperCase` on the characters this code can meet (ASCII case
mapping; all strings in the specification's claims are ASCII). -/
def jsToUpperChar (c : Char) : Char :=
  if 'a' ≤ c ∧ c ≤ 'z' then Char.ofNat (c.toNat - 32) else c

/-- Model of `toLowerCase` (ASCII case mapping, as for `jsToUpperChar`). -/
def jsToLowerChar (c : Char) : Char :=
  if 'A' ≤ c ∧ c ≤ 'Z' then Char.ofNat (c.toNat + 32) else c

/-- JS numbers: NaN, the two infinities, or a finite value modelled as a
rational (every finite double is a rational with terminating decimal
expansion). -/
inductive JSNum where
  | nan
  | inf
  | ninf
  | fin (q : ℚ)
deriving DecidableEq, Repr

/-- The JS values `parseStageOrdinal` can receive. -/
inductive JSVal where
  | null
  | undef
  | num (n : JSNum)
  | str (s : Str)
deriving DecidableEq, Repr

/-- Decimal digit test `0`-`9`. -/
def isDigitChar (c : Char) : Bool := '0' ≤ c && c ≤ '9'

/-- Numeric value of a digit character. -/
def digitVal (c : Char) : ℕ := c.toNat - '0'.toNat

/-- Value of a big-endian digit string. -/
def digitsVal (l : Str) : ℕ := l.foldl (fun a c => a * 10 + digitVal c) 0

/-- Big-endian decimal rendering of a natural number (empty for 0). -/
def renderNat (n : ℕ) : Str := ((Nat.digits 10 n).map Nat.digitChar).reverse

/-- Decimal rendering that prints `0` as `"0"`. -/
def renderNat0 (n : ℕ) : Str := if n = 0 then ['0'] else renderNat n

/-- Smallest exponent `k ≤ 1100` with `d ∣ 10 ^ k`.  Every finite double has
a terminating decimal expansion of fewer than 1100 fractional digits, so the
bound is not a restriction for values a JS number can take. -/
def findPow10 (d : ℕ) : Option ℕ :=
  (List.range 1100).find? (fun k => 10 ^ k % d == 0)

/-- Decidable test that a rational is exactly representable as a terminating
decimal (every finite JS number is). -/
def decimalRep (q : ℚ) : Bool := (findPow10 q.den).isSome

/-- Magnitude part of the decimal rendering of `n / 10 ^ k`: the integer
digits, then (for `k > 0`) a point and the `k` fraction digits with leading
zero padding. -/
def magStr (k n : ℕ) : Str :=
  if k = 0 then renderNat0 n
  else
    renderNat0 (n / 10 ^ k) ++ '.' ::
      (List.replicate (k - (renderNat (n % 10 ^ k)).length) '0'
        ++ renderNat (n % 10 ^ k))

/-- Model of JS number-to-string conversion (`String(n)`).  NaN and the
infinities print their literals; a finite value prints its exact terminating
decimal expansion with a leading minus for negatives (for such values this
is the string JS produces; scientific notation for extreme magnitudes is not
modelled, which no claim observes). -/
def numToString : JSNum → Str
  | .nan => "NaN".toList
  | .inf => "Infinity".toList
  | .ninf => "-Infinity".toList
  | .fin q =>
    if q = 0 then ['0']
    else
      match findPow10 q.den with
      | none => ['0']
      | some k =>
        if q < 0 then '-' :: magStr k (q.num.natAbs * 10 ^ k / q.den)
        else magStr k (q.num.natAbs * 10 ^ k / q.den)

/-- Split an optional leading sign: `(true, rest)` for a minus, `(false,
rest)` for a plus, `(false, unchanged)` otherwise. -/
def signSplit (l : Str) : Bool × Str :=
  match l with
  | [] => (false, [])
  | c :: r =>
    if c = '-' then (true, r)
    else if c = '+' then (false, r)
    else (false, c :: r)

/-- Split an optional fraction `.digits` off the front: the fraction digits
and the remainder. -/
def fracSplit (r1 : Str) : Str × Str :=
  match r1 with
  | [] => ([], [])
  | c :: r =>
    if c = '.' then (r.takeWhile isDigitChar, r.dropWhile isDigitChar)
    else ([], c :: r)

/-- Mantissa value of integer digits `d1` and fraction digits `d2`. -/
def mantVal (d1 d2 : Str) : ℚ := (digitsVal (d1 ++ d2) : ℚ) / 10 ^ d2.length

/-- Exponent the `parseFloat` prefix scan extracts from the remainder: a
well-formed `e`/`E` exponent contributes its value, anything else (including
a malformed exponent, which the longest-valid-prefix rule discards) gives 0. -/
def expVal (r2 : Str) : ℤ :=
  match r2 with
  | [] => 0
  | c :: r3 =>
    if c = 'e' ∨ c = 'E' then
      let sp := signSplit r3
      let d3 := sp.2.takeWhile isDigitChar
      if d3.isEmpty then 0
      else if sp.1 then -(digitsVal d3 : ℤ) else (digitsVal d3 : ℤ)
    else 0

/-- Model of the JS builtin `parseFloat`: skip leading whitespace, read an
optional sign, then the longest prefix that is an `Infinity` literal or a
decimal literal (digits, optional fraction, optional well-formed exponent);
`NaN` when no prefix qualifies. -/
def jsParseFloat (l : Str) : JSNum :=
  let sp := signSplit (l.dropWhile jsWhitespace)
  let neg := sp.1
  let l2 := sp.2
  if l2.take 8 = "Infinity".toList then (if neg then .ninf else .inf)
  else
    let d1 := l2.takeWhile isDigitChar
    let fr := fracSplit (l2.dropWhile isDigitChar)
    let d2 := fr.1
    if d1.isEmpty && d2.isEmpty then .nan
    else
      .fin ((if neg then -(mantVal d1 d2) else mantVal d1 d2) * (10 : ℚ) ^ expVal fr.2)

/-- Value of a hexadecimal/octal/binary digit character (99 for others, so
that `radixDigit` rejects them). -/
def radixDigitVal (c : Char) : ℕ :=
  if isDigitChar c then digitVal c
  else if 'a' ≤ c ∧ c ≤ 'f' then c.toNat - 'a'.toNat + 10
  else if 'A' ≤ c ∧ c ≤ 'F' then c.toNat - 'A'.toNat + 10
  else 99

/-- Digit test for base `b`. -/
def radixDigit (b : ℕ) (c : Char) : Bool := radixDigitVal c < b

/-- Base selected by the tag character of a `0x`/`0o`/`0b` literal. -/
def radixBase (c : Char) : ℕ :=
  if c = 'x' ∨ c = 'X' then 16 else if c = 'o' ∨ c = 'O' then 8 else 2

/-- Exponent part of a full decimal literal: the remainder must be empty or
exactly a well-formed `e`/`E` exponent; otherwise the literal is rejected. -/
def expFull (r2 : Str) : Option ℤ :=
  match r2 with
  | [] => some 0
  | c :: r3 =>
    if c = 'e' ∨ c = 'E' then
      let sp := signSplit r3
      if (¬ sp.2.isEmpty) ∧ sp.2.all isDigitChar then
        some (if sp.1 then -(digitsVal sp.2 : ℤ) else (digitsVal sp.2 : ℤ))
      else none
    else none

/-- Full-string decimal literal conversion (the `StrDecimalLiteral` part of
the JS `Number()` grammar): optional sign, then `Infinity` or digits with
optional fraction and exponent, consuming the whole string. -/
def decFull (t : Str) : JSNum :=
  let sp := signSplit t
  let neg := sp.1
  let b := sp.2
  if b = "Infinity".toList then (if neg then .ninf else .inf)
  else
    let d1 := b.takeWhile isDigitChar
    let fr := fracSplit (b.dropWhile isDigitChar)
    let d2 := fr.1
    if d1.isEmpty && d2.isEmpty then .nan
    else
      match expFull fr.2 with
      | none => .nan
      | some e =>
        .fin ((if neg then -(mantVal d1 d2) else mantVal d1 d2) * (10 : ℚ) ^ e)

/-- Model of the JS builtin `Number()` conversion on strings: trim; empty
becomes 0; a `0x`/`0X`/`0o`/`0O`/`0b`/`0B` tag demands a non-empty run of
digits of that base (unsigned); anything else must be a full decimal literal
(optionally signed, `Infinity` allowed); `NaN` otherwise. -/
def jsNumber (l : Str) : JSNum :=
  let t := jsTrim l
  if t.isEmpty then .fin 0
  else
    match t with
    | z :: c :: rest =>
      if z = '0' ∧ (c = 'x' ∨ c = 'X' ∨ c = 'o' ∨ c = 'O' ∨ c = 'b' ∨ c = 'B') then
        if (¬ rest.isEmpty) ∧ rest.all (radixDigit (radixBase c)) then
          .fin ((rest.foldl (fun a ch => a * radixBase c + radixDigitVal ch) 0 : ℕ) : ℚ)
        else .nan
      else decFull (z :: c :: rest)
    | t1 => decFull t1

/-- The source's `ROMAN_MAP` table. -/
def romanMap : List (Str × ℚ) :=
  [("I".toList, 1), ("II".toList, 2), ("III".toList, 3),
   ("IV".toList, 4), ("V".toList, 5)]

/-- Lookup in `ROMAN_MAP`. -/
def romanLookup (s : Str) : Option ℚ := romanMap.lookup s

/-- Character class `[IVX]` under the pattern's case-insensitive flag. -/
def isIVX (c : Char) : Bool := ['i', 'v', 'x', 'I', 'V', 'X'].contains c

/-- Attempt of the pattern `Stage\s*([IVX]+)` (case-insensitive) anchored at
the start of `l`; returns the captured numeral run.  Backtracking cannot help
the engine here because whitespace and `[IVX]` are disjoint classes, so the
greedy scan is exact. -/
def matchStageAt (l : Str) : Option Str :=
  if (l.take 5).map jsToLowerChar == "stage".toList then
    let cap := ((l.drop 5).dropWhile jsWhitespace).takeWhile isIVX
    if cap.isEmpty then none else some cap
  else none

/-- Model of `s.match(/Stage\s*([IVX]+)/i)`: the leftmost position where the
pattern matches, returning the capture. -/
def stageSearch : Str → Option Str
  | [] => none
  | c :: cs =>
    match matchStageAt (c :: cs) with
    | some cap => some cap
    | none => stageSearch cs

/-- String conversion `String(v)` for the modelled JS values. -/
def jsToString : JSVal → Str
  | .null => "null".toList
  | .undef => "undefined".toList
  | .num n => numToString n
  | .str s => s

/-- Embedding of `parseStageOrdinal`: null/undefined and numeric NaN yield 0;
a `Stage [IVX]+` match resolves through `ROMAN_MAP` (0 when absent); else the
trimmed upper-cased string is looked up as a plain numeral; else it is
`parseFloat`-parsed, with NaN collapsing to 0. -/
def parseStageOrdinal (stageVal : JSVal) : JSNum :=
  match stageVal with
  | .null => .fin 0
  | .undef => .fin 0
  | .num .nan => .fin 0
  | v =>
    let s := jsToString v
    match stageSearch s with
    | some cap => .fin ((romanLookup (cap.map jsToUpperChar)).getD 0)
    | none =>
      let plain := (jsTrim s).map jsToUpperChar
      match romanLookup plain with
      | some n => .fin n
      | none =>
        match jsParseFloat plain with
        | .nan => .fin 0
        | r => r

/-- Dispatch outcome of `readUploadedFile`. -/
inductive UploadOutcome where
  | csv
  | excel
  | unsupported (msg : Str)
deriving DecidableEq, Repr

/-- The error message thrown for an unrecognized extension. -/
def unsupportedMsg : Str :=
  "Unsupported file type. Please upload .csv or .xlsx".toList

/-- Suffix test on character lists (model of `String.prototype.endsWith`). -/
def strEndsWith (l p : Str) : Bool := p == l.drop (l.length - p.length)

/-- Test whether `p` occurs at the start of `l`. -/
def strStartsWithSub (l p : Str) : Bool := p == l.take p.length

/-- Substring occurrence test. -/
def strHasSub : Str → Str → Bool
  | [], sub => sub.isEmpty
  | c :: rest, sub => strStartsWithSub (c :: rest) sub || strHasSub rest sub

/-- Embedding of the dispatch of `readUploadedFile`: lowercase the name,
send `.csv` to the delimited-text path, `.xlsx`/`.xls` to the spreadsheet
path, and throw the fixed unsupported-type error otherwise. -/
def readUploadedFileDispatch (name : Str) : UploadOutcome :=
  let n := name.map jsToLowerChar
  if strEndsWith n ".csv".toList then .csv
  else if strEndsWith n ".xlsx".toList || strEndsWith n ".xls".toList then .excel
  else .unsupported unsupportedMsg

/-- Unfolding of `parseStageOrdinal` on a string input. -/
theorem parseStageOrdinal_str (s : Str) :
    parseStageOrdinal (.str s)
      = match stageSearch s with
        | some cap => .fin ((romanLookup (cap.map jsToUpperChar)).getD 0)
        | none =>
          match romanLookup ((jsTrim s).map jsToUpperChar) with
          | some n => .fin n
          | none =>
            match jsParseFloat ((jsTrim s).map jsToUpperChar) with
            | .nan => .fin 0
            | r => r := rfl

/-- Unfolding of `parseStageOrdinal` on any input outside the first branch. -/
theorem parseStageOrdinal_eq_branches (v : JSVal)
    (h1 : v ≠ .null) (h2 : v ≠ .undef) (h3 : v ≠ .num .nan) :
    parseStageOrdinal v
      = match stageSearch (jsToString v) with
        | some cap => .fin ((romanLookup (cap.map jsToUpperChar)).getD 0)
        | none =>
          match romanLookup ((jsTrim (jsToString v)).map jsToUpperChar) with
          | some n => .fin n
          | none =>
            match jsParseFloat ((jsTrim (jsToString v)).map jsToUpperChar) with
            | .nan => .fin 0
            | r => r := by
  cases v with
  | null => exact absurd rfl h1
  | undef => exact absurd rfl h2
  | num n =>
    cases n with
    | nan => exact absurd rfl h3
    | inf => rfl
    | ninf => rfl
    | fin q => rfl
  | str s => rfl

/-- The table only ever yields the values 1 through 5. -/
theorem romanLookup_cases {s : Str} {x : ℚ} (h : romanLookup s = some x) :
    x = 1 ∨ x = 2 ∨ x = 3 ∨ x = 4 ∨ x = 5 := by
  unfold romanLookup romanMap at h
  simp only [List.lookup] at h
  repeat' split at h
  all_goals simp_all

/-- C3: `parseStageOrdinal` applies its branches in order with first-match
wins: null/undefined/NaN yield 0; a `Stage\s*[IVX]+` match is resolved only
through the fixed table, an unmatched numeral yielding 0 with no fallback
("Stage IIX" and "Stage VII" yield 0, "Stage II" yields 2); else a trimmed
upper-cased table key yields its value ("iv" yields 4); else the string is
float-parsed ("2.5" yields 2.5, failure yields 0). -/
theorem parseStageOrdinal_claim :
    parseStageOrdinal .null = .fin 0
    ∧ parseStageOrdinal .undef = .fin 0
    ∧ parseStageOrdinal (.num .nan) = .fin 0
    ∧ (∀ (s : Str) (cap : Str), stageSearch s = some cap →
        parseStageOrdinal (.str s) = .fin ((romanLookup (cap.map jsToUpperChar)).getD 0))
    ∧ parseStageOrdinal (.str "Stage IIX".toList) = .fin 0
    ∧ parseStageOrdinal (.str "Stage VII".toList) = .fin 0
    ∧ (∀ (s : Str) (v : ℚ), stageSearch s = none →
        romanLookup ((jsTrim s).map jsToUpperChar) = some v →
        parseStageOrdinal (.str s) = .fin v)
    ∧ parseStageOrdinal (.str "iv".toList) = .fin 4
    ∧ (∀ s : Str, stageSearch s = none →
        romanLookup ((jsTrim s).map jsToUpperChar) = none →
        parseStageOrdinal (.str s)
          = (match jsParseFloat ((jsTrim s).map jsToUpperChar) with
             | .nan => .fin 0
             | r => r))
    ∧ parseStageOrdinal (.str "2.5".toList) = .fin (5/2)
    ∧ parseStageOrdinal (.str "Stage II".toList) = .fin 2 := by
  refine ⟨rfl, rfl, rfl, ?_, rfl, rfl, ?_, rfl, ?_, ?_, rfl⟩
  · intro s cap h
    rw [parseStageOrdinal_str, h]
  · intro s v hs hr
    rw [parseStageOrdinal_str, hs, hr]
  · intro s hs hr
    rw [parseStageOrdinal_str, hs, hr]
  · have h : parseStageOrdinal (.str "2.5".toList)
        = .fin ((digitsVal "25".toList : ℚ) / 10 ^ 1 * (10:ℚ) ^ (0:ℤ)) := rfl
    rw [h, show digitsVal "25".toList = 25 from rfl]
    norm_num

/-- Witness for C3: the stage-pattern branch at the concrete input
"Stage II". -/
theorem parseStageOrdinal_claim_witness :
    parseStageOrdinal (.str "Stage II".toList)
      = .fin ((romanLookup ("II".toList.map jsToUpperChar)).getD 0) :=
  parseStageOrdinal_claim.2.2.2.1 "Stage II".toList "II".toList rfl

/-- C6 counterexample: "2.5" reaches the float branch and produces 5/2,
which is not a natural number, so `parseStageOrdinal` does not always return
a non-negative integer. -/
theorem parseStageOrdinal_nonint_cex :
    parseStageOrdinal (.str "2.5".toList) = .fin (5/2)
    ∧ ∀ n : ℕ, (5/2 : ℚ) ≠ (n : ℚ) := by
  constructor
  · have h : parseStageOrdinal (.str "2.5".toList)
        = .fin ((digitsVal "25".toList : ℚ) / 10 ^ 1 * (10:ℚ) ^ (0:ℤ)) := rfl
    rw [h, show digitsVal "25".toList = 25 from rfl]
    norm_num
  · intro n h
    have h2 : (5:ℚ) = 2 * (n:ℚ) := by field_simp at h; linarith
    have h3 : (5:ℕ) = 2 * n := by exact_mod_cast h2
    omega

/-- Helper: a table value is the cast of a natural number at most 5. -/
theorem riskTableNat (x : ℚ) (hx : x = 1 ∨ x = 2 ∨ x = 3 ∨ x = 4 ∨ x = 5) :
    ∃ n : ℕ, n ≤ 5 ∧ x = (n:ℚ) := by
  rcases hx with h | h | h | h | h
  · exact ⟨1, by norm_num, by rw [h]; norm_num⟩
  · exact ⟨2, by norm_num, by rw [h]; norm_num⟩
  · exact ⟨3, by norm_num, by rw [h]; norm_num⟩
  · exact ⟨4, by norm_num, by rw [h]; norm_num⟩
  · exact ⟨5, by norm_num, by rw [h]; norm_num⟩

/-- C6 (amended): every result of `parseStageOrdinal` is either a
non-negative integer at most 5 (the null/NaN, stage-pattern and table
branches) or exactly the value of the final float-parse branch, which may be
fractional or negative. -/
theorem parseStageOrdinal_range (v : JSVal) :
    (∃ n : ℕ, n ≤ 5 ∧ parseStageOrdinal v = .fin (n:ℚ))
    ∨ parseStageOrdinal v
        = (match jsParseFloat ((jsTrim (jsToString v)).map jsToUpperChar) with
           | .nan => .fin 0
           | r => r) := by
  by_cases h1 : v = .null
  · subst h1; exact Or.inl ⟨0, by norm_num, by norm_num [parseStageOrdinal]⟩
  by_cases h2 : v = .undef
  · subst h2; exact Or.inl ⟨0, by norm_num, by norm_num [parseStageOrdinal]⟩
  by_cases h3 : v = .num .nan
  · subst h3; exact Or.inl ⟨0, by norm_num, by norm_num [parseStageOrdinal]⟩
  rw [parseStageOrdinal_eq_branches v h1 h2 h3]
  rcases hss : stageSearch (jsToString v) with _ | cap
  · rcases hrl : romanLookup ((jsTrim (jsToString v)).map jsToUpperChar) with _ | x
    · right; rfl
    · left
      obtain ⟨n, hn, hx⟩ := riskTableNat x (romanLookup_cases hrl)
      exact ⟨n, hn, by rw [hx]⟩
  · left
    rcases hrl : romanLookup (cap.map jsToUpperChar) with _ | x
    · refine ⟨0, by norm_num, ?_⟩
      show JSNum.fin ((romanLookup (cap.map jsToUpperChar)).getD 0) = JSNum.fin ((0:ℕ):ℚ)
      rw [hrl]
      norm_num
    · obtain ⟨n, hn, hx⟩ := riskTableNat x (romanLookup_cases hrl)
      refine ⟨n, hn, ?_⟩
      show JSNum.fin ((romanLookup (cap.map jsToUpperChar)).getD 0) = JSNum.fin ((n:ℕ):ℚ)
      rw [hrl]
      simp [hx]

/-- C8 counterexample: the unsupported-type error is a fixed message that
does not mention the rejected filename "data.txt" or its extension ".txt". -/
theorem readUploadedFile_no_filename_cex :
    readUploadedFileDispatch "data.txt".toList = .unsupported unsupportedMsg
    ∧ strHasSub unsupportedMsg ".txt".toList = false
    ∧ strHasSub unsupportedMsg "data.txt".toList = false := by
  exact ⟨rfl, by decide, by decide⟩

/-- C8 (amended): lowercase names ending in .csv take the delimited-text
path, .xlsx/.xls the spreadsheet path; everything else fails with a fixed
unsupported-type error naming the accepted suffixes (".csv" and ".xlsx",
".xls" occurring inside the latter) but not the rejected filename. -/
theorem readUploadedFileDispatch_claim :
    (∀ name : Str,
        strEndsWith (name.map jsToLowerChar) ".csv".toList = true →
        readUploadedFileDispatch name = .csv)
    ∧ (∀ name : Str,
        strEndsWith (name.map jsToLowerChar) ".csv".toList = false →
        (strEndsWith (name.map jsToLowerChar) ".xlsx".toList = true
          ∨ strEndsWith (name.map jsToLowerChar) ".xls".toList = true) →
        readUploadedFileDispatch name = .excel)
    ∧ (∀ name : Str,
        strEndsWith (name.map jsToLowerChar) ".csv".toList = false →
        strEndsWith (name.map jsToLowerChar) ".xlsx".toList = false →
        strEndsWith (name.map jsToLowerChar) ".xls".toList = false →
        readUploadedFileDispatch name = .unsupported unsupportedMsg)
    ∧ strHasSub unsupportedMsg ".csv".toList = true
    ∧ strHasSub unsupportedMsg ".xlsx".toList = true
    ∧ strHasSub unsupportedMsg ".xls".toList = true := by
  refine ⟨?_, ?_, ?_, by decide, by decide, by decide⟩
  · intro name h
    have h' : strEndsWith (name.map jsToLowerChar) ['.', 'c', 's', 'v'] = true := h
    simp [readUploadedFileDispatch, h']
  · intro name h1 h2
    have h1' : strEndsWith (name.map jsToLowerChar) ['.', 'c', 's', 'v'] = false := h1
    rcases h2 with h2 | h2
    · have h2' : strEndsWith (name.map jsToLowerChar) ['.', 'x', 'l', 's', 'x'] = true := h2
      simp [readUploadedFileDispatch, h1', h2']
    · have h2' : strEndsWith (name.map jsToLowerChar) ['.', 'x', 'l', 's'] = true := h2
      simp [readUploadedFileDispatch, h1', h2']
  · intro name h1 h2 h3
    have h1' : strEndsWith (name.map jsToLowerChar) ['.', 'c', 's', 'v'] = false := h1
    have h2' : strEndsWith (name.map jsToLowerChar) ['.', 'x', 'l', 's', 'x'] = false := h2
    have h3' : strEndsWith (name.map jsToLowerChar) ['.', 'x', 'l', 's'] = false := h3
    simp [readUploadedFileDispatch, h1', h2', h3']

/-- Witness for C8 at the concrete rejected name "data.txt". -/
theorem readUploadedFileDispatch_claim_witness :
    readUploadedFileDispatch "data.txt".toList = .unsupported unsupportedMsg :=
  readUploadedFileDispatch_claim.2.2.1 "data.txt".toList (by decide) (by decide)
    (by decide)

/-- Characters a finite number's rendering may contain: minus, point, or a
decimal digit. -/
def NumChar (c : Char) : Prop :=
  c = '-' ∨ c = '.' ∨ ∃ d, d < 10 ∧ c = Nat.digitChar d

/-- Facts about the ten digit characters. -/
theorem digitChar_props {d : ℕ} (h : d < 10) :
    isDigitChar (Nat.digitChar d) = true
    ∧ digitVal (Nat.digitChar d) = d
    ∧ jsWhitespace (Nat.digitChar d) = false
    ∧ jsToUpperChar (Nat.digitChar d) = Nat.digitChar d
    ∧ jsToLowerChar (Nat.digitChar d) = Nat.digitChar d
    ∧ Nat.digitChar d ≠ '-' ∧ Nat.digitChar d ≠ '+' ∧ Nat.digitChar d ≠ '.'
    ∧ Nat.digitChar d ≠ 'I' := by
  interval_cases d <;> decide

/-- Facts about the characters of a numeric rendering. -/
theorem numChar_props {c : Char} (h : NumChar c) :
    jsWhitespace c = false
    ∧ jsToUpperChar c = c
    ∧ jsToLowerChar c ≠ 's'
    ∧ c ≠ 'I' ∧ c ≠ 'V'
    ∧ c ≠ 'x' ∧ c ≠ 'X' ∧ c ≠ 'o' ∧ c ≠ 'O' ∧ c ≠ 'b' ∧ c ≠ 'B' := by
  rcases h with rfl | rfl | ⟨d, hd, rfl⟩
  · decide
  · decide
  · interval_cases d <;> decide

/-- Every character of `renderNat` is a digit character. -/
theorem mem_renderNat {n : ℕ} {c : Char} (hc : c ∈ renderNat n) :
    ∃ d, d < 10 ∧ c = Nat.digitChar d := by
  unfold renderNat at hc
  rw [List.mem_reverse] at hc
  obtain ⟨d, hd, rfl⟩ := List.mem_map.mp hc
  exact ⟨d, Nat.digits_lt_base (by norm_num) hd, rfl⟩

/-- Every character of `renderNat0` is a digit character. -/
theorem mem_renderNat0 {n : ℕ} {c : Char} (hc : c ∈ renderNat0 n) :
    ∃ d, d < 10 ∧ c = Nat.digitChar d := by
  unfold renderNat0 at hc
  split at hc
  · have : c = '0' := by simpa using hc
    exact ⟨0, by norm_num, by rw [this]; rfl⟩
  · exact mem_renderNat hc

/-- The rendering of a natural number starts with a digit character. -/
theorem renderNat0_head (n : ℕ) :
    ∃ d t, d < 10 ∧ renderNat0 n = Nat.digitChar d :: t := by
  by_cases h : n = 0
  · exact ⟨0, [], by norm_num, by rw [h]; rfl⟩
  · have hne : Nat.digits 10 n ≠ [] := Nat.digits_ne_nil_iff_ne_zero.mpr h
    have hrev : (Nat.digits 10 n).reverse ≠ [] := by simpa using hne
    obtain ⟨d, t', ht⟩ := List.exists_cons_of_ne_nil hrev
    refine ⟨d, t'.map Nat.digitChar, ?_, ?_⟩
    · have hd : d ∈ (Nat.digits 10 n).reverse := by
        rw [ht]; exact List.mem_cons_self d t'
      exact Nat.digits_lt_base (by norm_num) (List.mem_reverse.mp hd)
    · show renderNat0 n = _
      rw [renderNat0, if_neg h, renderNat, ← List.map_reverse, ht, List.map_cons]

/-- A nonempty rendering. -/
theorem renderNat0_ne_nil (n : ℕ) : renderNat0 n ≠ [] := by
  obtain ⟨d, t, _, ht⟩ := renderNat0_head n
  rw [ht]
  exact List.cons_ne_nil _ _

/-- Folding the digit accumulator from an arbitrary start. -/
theorem digitsVal_from (a : ℕ) (l : Str) :
    l.foldl (fun x c => x * 10 + digitVal c) a = a * 10 ^ l.length + digitsVal l := by
  induction l generalizing a with
  | nil => simp [digitsVal]
  | cons c t ih =>
    show List.foldl _ (a * 10 + digitVal c) t = _
    rw [ih]
    have h2 : digitsVal (c :: t) = digitVal c * 10 ^ t.length + digitsVal t := by
      show List.foldl _ (0 * 10 + digitVal c) t = _
      rw [ih]
      ring
    rw [h2, List.length_cons]
    ring

/-- `digitsVal` over an append. -/
theorem digitsVal_append (a b : Str) :
    digitsVal (a ++ b) = digitsVal a * 10 ^ b.length + digitsVal b := by
  show List.foldl _ 0 (a ++ b) = _
  rw [List.foldl_append]
  exact digitsVal_from _ b

/-- Leading zeros contribute nothing. -/
theorem digitsVal_replicate_zero (j : ℕ) :
    digitsVal (List.replicate j '0') = 0 := by
  induction j with
  | zero => rfl
  | succ m ih =>
    rw [List.replicate_succ]
    show List.foldl _ (0 * 10 + digitVal '0') _ = 0
    exact ih

/-- Value of a big-endian digit string built from little-endian digits. -/
theorem digitsVal_reverse_map {ds : List ℕ} (h : ∀ d ∈ ds, d < 10) :
    digitsVal ((ds.map Nat.digitChar).reverse) = Nat.ofDigits 10 ds := by
  induction ds with
  | nil => rfl
  | cons d ds ih =>
    rw [List.map_cons, List.reverse_cons, digitsVal_append]
    have hd : digitVal (Nat.digitChar d) = d :=
      (digitChar_props (h d (List.mem_cons_self d ds))).2.1
    have h1 : digitsVal [Nat.digitChar d] = d := by
      show 0 * 10 + digitVal (Nat.digitChar d) = d
      rw [hd]
      ring
    rw [h1, ih (fun x hx => h x (List.mem_cons_of_mem d hx)), Nat.ofDigits_cons]
    simp
    ring

/-- Printing then revaluing a natural number is the identity. -/
theorem digitsVal_renderNat (n : ℕ) : digitsVal (renderNat n) = n := by
  unfold renderNat
  rw [digitsVal_reverse_map (fun d hd => Nat.digits_lt_base (by norm_num) hd)]
  exact Nat.ofDigits_digits 10 n

/-- Printing then revaluing, zero included. -/
theorem digitsVal_renderNat0 (n : ℕ) : digitsVal (renderNat0 n) = n := by
  unfold renderNat0
  split
  · next h => rw [h]; rfl
  · exact digitsVal_renderNat n

/-- A number below `10 ^ k` prints in at most `k` digits. -/
theorem renderNat_length_le {n k : ℕ} (h : n < 10 ^ k) : (renderNat n).length ≤ k := by
  unfold renderNat
  rw [List.length_reverse, List.length_map]
  by_cases hn : n = 0
  · simp [hn]
  · rw [Nat.digits_len 10 n (by norm_num) hn]
    have := Nat.log_lt_of_lt_pow hn h
    omega

/-- `takeWhile` passes over a block of satisfying elements. -/
theorem takeWhile_append_all {p : Char → Bool} {A : Str} (B : Str)
    (h : ∀ a ∈ A, p a = true) :
    (A ++ B).takeWhile p = A ++ B.takeWhile p := by
  induction A with
  | nil => rfl
  | cons a t ih =>
    rw [List.cons_append, List.takeWhile_cons, h a (List.mem_cons_self a t)]
    rw [ih (fun x hx => h x (List.mem_cons_of_mem a hx))]
    rfl

/-- `dropWhile` passes over a block of satisfying elements. -/
theorem dropWhile_append_all {p : Char → Bool} {A : Str} (B : Str)
    (h : ∀ a ∈ A, p a = true) :
    (A ++ B).dropWhile p = B.dropWhile p := by
  induction A with
  | nil => rfl
  | cons a t ih =>
    rw [List.cons_append, List.dropWhile_cons, h a (List.mem_cons_self a t)]
    rw [ih (fun x hx => h x (List.mem_cons_of_mem a hx))]
    rfl

/-- `takeWhile` keeps a fully satisfying list. -/
theorem takeWhile_all {p : Char → Bool} {A : Str} (h : ∀ a ∈ A, p a = true) :
    A.takeWhile p = A := by
  have := takeWhile_append_all (A := A) [] h
  simpa using this

/-- `dropWhile` exhausts a fully satisfying list. -/
theorem dropWhile_all {p : Char → Bool} {A : Str} (h : ∀ a ∈ A, p a = true) :
    A.dropWhile p = [] := by
  have := dropWhile_append_all (A := A) [] h
  simpa using this

/-- `dropWhile` keeps a list none of whose elements satisfy. -/
theorem dropWhile_eq_self_of {p : Char → Bool} {l : Str}
    (h : ∀ c ∈ l, p c = false) : l.dropWhile p = l := by
  cases l with
  | nil => rfl
  | cons c t =>
    rw [List.dropWhile_cons, h c (List.mem_cons_self c t)]
    rfl

/-- Trimming a string with no whitespace is the identity. -/
theorem jsTrim_eq_self {l : Str} (h : ∀ c ∈ l, jsWhitespace c = false) :
    jsTrim l = l := by
  unfold jsTrim
  rw [dropWhile_eq_self_of h,
    dropWhile_eq_self_of (fun c hc => h c (List.mem_reverse.mp hc)),
    List.reverse_reverse]

/-- Mapping a function that fixes every element is the identity. -/
theorem map_eq_self_of {f : Char → Char} {l : Str} (h : ∀ c ∈ l, f c = c) :
    l.map f = l := by
  induction l with
  | nil => rfl
  | cons c t ih =>
    rw [List.map_cons, h c (List.mem_cons_self c t),
      ih (fun x hx => h x (List.mem_cons_of_mem c hx))]

/-- The stage pattern cannot match a string with no letter lowercasing to
`s`. -/
theorem stageSearch_eq_none {l : Str} (h : ∀ c ∈ l, jsToLowerChar c ≠ 's') :
    stageSearch l = none := by
  induction l with
  | nil => rfl
  | cons c t ih =>
    have hm : matchStageAt (c :: t) = none := by
      unfold matchStageAt
      rw [if_neg]
      intro heq
      rw [List.take_succ_cons, List.map_cons,
        show ("stage".toList : Str) = 's' :: "tage".toList from rfl] at heq
      injection eq_of_beq heq with h1 _
      exact h c (List.mem_cons_self c t) h1
    show (match matchStageAt (c :: t) with
          | some cap => some cap
          | none => stageSearch t) = none
    rw [hm]
    exact ih (fun x hx => h x (List.mem_cons_of_mem c hx))

/-- A string of numeric characters is not a key of the numeral table. -/
theorem romanLookup_none {s : Str} (h : ∀ c ∈ s, NumChar c) :
    romanLookup s = none := by
  have hne : ∀ k : Str, ('I' ∈ k ∨ 'V' ∈ k) → (s == k) = false := by
    intro k hk
    apply beq_eq_false_iff_ne.mpr
    intro he
    rcases hk with hk | hk
    · exact (numChar_props (h 'I' (he.symm ▸ hk))).2.2.2.1 rfl
    · exact (numChar_props (h 'V' (he.symm ▸ hk))).2.2.2.2.1 rfl
  have hI : (s == "I".toList) = false := hne _ (Or.inl (by decide))
  have hII : (s == "II".toList) = false := hne _ (Or.inl (by decide))
  have hIII : (s == "III".toList) = false := hne _ (Or.inl (by decide))
  have hIV : (s == "IV".toList) = false := hne _ (Or.inl (by decide))
  have hV : (s == "V".toList) = false := hne _ (Or.inr (by decide))
  simp only [romanLookup, romanMap, List.lookup, hI, hII, hIII, hIV, hV]

/-- `fracSplit` on a dot-headed remainder. -/
theorem fracSplit_dot (r : Str) :
    fracSplit ('.' :: r) = (r.takeWhile isDigitChar, r.dropWhile isDigitChar) := rfl

/-- Every character of the magnitude string is numeric. -/
theorem mem_magStr {k n : ℕ} {c : Char} (hc : c ∈ magStr k n) : NumChar c := by
  unfold magStr at hc
  split at hc
  · exact Or.inr (Or.inr (mem_renderNat0 hc))
  · rcases List.mem_append.mp hc with h | h
    · exact Or.inr (Or.inr (mem_renderNat0 h))
    · rcases List.mem_cons.mp h with rfl | h
      · exact Or.inr (Or.inl rfl)
      · rcases List.mem_append.mp h with h | h
        · have h0 : c = '0' := List.eq_of_mem_replicate h
          exact Or.inr (Or.inr ⟨0, by norm_num, by rw [h0]; rfl⟩)
        · exact Or.inr (Or.inr (mem_renderNat h))

/-- The magnitude string starts with a digit character. -/
theorem magStr_head (k n : ℕ) :
    ∃ d t, d < 10 ∧ magStr k n = Nat.digitChar d :: t := by
  unfold magStr
  split
  · exact renderNat0_head n
  · obtain ⟨d, t, hd, ht⟩ := renderNat0_head (n / 10 ^ k)
    exact ⟨d, t ++ '.' :: (List.replicate (k - (renderNat (n % 10 ^ k)).length) '0'
      ++ renderNat (n % 10 ^ k)), hd, by rw [ht, List.cons_append]⟩

/-- Integer-part characters are digits. -/
theorem renderNat0_all_digits (m : ℕ) :
    ∀ c ∈ renderNat0 m, isDigitChar c = true := by
  intro c hc
  obtain ⟨d, hd, rfl⟩ := mem_renderNat0 hc
  exact (digitChar_props hd).1

/-- All fraction characters are digits. -/
theorem frac_all_digits (k n : ℕ) :
    ∀ c ∈ List.replicate (k - (renderNat (n % 10 ^ k)).length) '0'
        ++ renderNat (n % 10 ^ k), isDigitChar c = true := by
  intro c hc
  rcases List.mem_append.mp hc with h | h
  · rw [List.eq_of_mem_replicate h]; decide
  · obtain ⟨d, hd, rfl⟩ := mem_renderNat h
    exact (digitChar_props hd).1

/-- The padded fraction has exactly `k` digits. -/
theorem frac_length (k n : ℕ) :
    (List.replicate (k - (renderNat (n % 10 ^ k)).length) '0'
      ++ renderNat (n % 10 ^ k)).length = k := by
  rw [List.length_append, List.length_replicate]
  have hL : (renderNat (n % 10 ^ k)).length ≤ k :=
    renderNat_length_le (Nat.mod_lt _ (by positivity))
  omega

/-- The padded fraction holds the value `n % 10 ^ k`. -/
theorem frac_val (k n : ℕ) :
    digitsVal (List.replicate (k - (renderNat (n % 10 ^ k)).length) '0'
      ++ renderNat (n % 10 ^ k)) = n % 10 ^ k := by
  rw [digitsVal_append, digitsVal_replicate_zero, digitsVal_renderNat]
  ring

/-- Scanning the magnitude string yields non-empty integer digits, the
fraction digits, an empty remainder, and the mantissa value `n / 10 ^ k`. -/
theorem magStr_scan (k n : ℕ) :
    ∃ d1 d2 : Str,
      (magStr k n).takeWhile isDigitChar = d1
      ∧ fracSplit ((magStr k n).dropWhile isDigitChar) = (d2, [])
      ∧ d1.isEmpty = false
      ∧ mantVal d1 d2 = (n : ℚ) / 10 ^ k := by
  by_cases hk : k = 0
  · subst hk
    have hmag : magStr 0 n = renderNat0 n := rfl
    refine ⟨renderNat0 n, [], ?_, ?_, ?_, ?_⟩
    · rw [hmag]
      exact takeWhile_all (renderNat0_all_digits n)
    · rw [hmag, dropWhile_all (renderNat0_all_digits n)]
      rfl
    · obtain ⟨d, t, _, ht⟩ := renderNat0_head n
      rw [ht]; rfl
    · unfold mantVal
      rw [List.append_nil, digitsVal_renderNat0]
      norm_num
  · have hmag : magStr k n
        = renderNat0 (n / 10 ^ k) ++ '.' ::
            (List.replicate (k - (renderNat (n % 10 ^ k)).length) '0'
              ++ renderNat (n % 10 ^ k)) := by
      unfold magStr; rw [if_neg hk]
    have hdot : isDigitChar '.' = false := by decide
    refine ⟨renderNat0 (n / 10 ^ k),
      List.replicate (k - (renderNat (n % 10 ^ k)).length) '0'
        ++ renderNat (n % 10 ^ k), ?_, ?_, ?_, ?_⟩
    · rw [hmag, takeWhile_append_all _ (renderNat0_all_digits _),
        List.takeWhile_cons, hdot]
      simp
    · rw [hmag, dropWhile_append_all _ (renderNat0_all_digits _),
        List.dropWhile_cons, hdot]
      show fracSplit ('.' :: _) = _
      rw [fracSplit_dot, takeWhile_all (frac_all_digits k n),
        dropWhile_all (frac_all_digits k n)]
    · obtain ⟨d, t, _, ht⟩ := renderNat0_head (n / 10 ^ k)
      rw [ht]; rfl
    · unfold mantVal
      have hval : digitsVal (renderNat0 (n / 10 ^ k)
          ++ (List.replicate (k - (renderNat (n % 10 ^ k)).length) '0'
            ++ renderNat (n % 10 ^ k))) = n := by
        rw [digitsVal_append, digitsVal_renderNat0, frac_val, frac_length,
          Nat.mul_comm]
        exact Nat.div_add_mod n (10 ^ k)
      rw [hval, frac_length]

/-- Sign splitting leaves a digit-headed string untouched. -/
theorem signSplit_digit {d : ℕ} (hd : d < 10) (t : Str) :
    signSplit (Nat.digitChar d :: t) = (false, Nat.digitChar d :: t) := by
  show (if Nat.digitChar d = '-' then (true, t)
        else if Nat.digitChar d = '+' then ((false : Bool), t)
        else (false, Nat.digitChar d :: t)) = (false, Nat.digitChar d :: t)
  rw [if_neg ((digitChar_props hd).2.2.2.2.2.1),
    if_neg ((digitChar_props hd).2.2.2.2.2.2.1)]

/-- A digit-headed string is not an `Infinity` literal prefix. -/
theorem take_ne_Infinity {d : ℕ} (hd : d < 10) (t : Str) :
    (Nat.digitChar d :: t).take 8 ≠ "Infinity".toList := by
  rw [List.take_succ_cons,
    show ("Infinity".toList : Str) = 'I' :: "nfinity".toList from rfl]
  intro heq
  injection heq with h1 _
  exact (digitChar_props hd).2.2.2.2.2.2.2.2 h1

/-- `parseFloat` recovers the value of a signed magnitude rendering. -/
theorem jsParseFloat_round (k n : ℕ) (neg : Bool) :
    jsParseFloat (if neg then '-' :: magStr k n else magStr k n)
      = .fin (if neg then -((n:ℚ) / 10 ^ k) else (n:ℚ) / 10 ^ k) := by
  obtain ⟨d, t, hd, hht⟩ := magStr_head k n
  obtain ⟨d1, d2, htw, hfs, hne, hmv⟩ := magStr_scan k n
  have hwsmag : ∀ c ∈ magStr k n, jsWhitespace c = false :=
    fun c hc => (numChar_props (mem_magStr hc)).1
  have hws : ∀ c ∈ (if neg then '-' :: magStr k n else magStr k n),
      jsWhitespace c = false := by
    cases neg
    · simpa using hwsmag
    · intro c hc
      rcases List.mem_cons.mp hc with rfl | hc
      · decide
      · exact hwsmag c hc
  have hsp : signSplit (if neg then '-' :: magStr k n else magStr k n)
      = (neg, magStr k n) := by
    cases neg
    · show signSplit (magStr k n) = (false, magStr k n)
      rw [hht]
      exact signSplit_digit hd t
    · show signSplit ('-' :: magStr k n) = (true, magStr k n)
      rfl
  have hinf : ¬ ((magStr k n).take 8 = "Infinity".toList) := by
    rw [hht]
    exact take_ne_Infinity hd t
  unfold jsParseFloat
  rw [dropWhile_eq_self_of hws, hsp]
  simp only [htw, hfs, hne, if_neg hinf]
  have hexp : expVal ([] : Str) = 0 := rfl
  simp only [Bool.false_and, hexp, hmv, zpow_zero, mul_one]
  simp

/-- The denominator divides `10 ^ k` at the exponent `findPow10` returns. -/
theorem findPow10_dvd {d k : ℕ} (hk : findPow10 d = some k) : d ∣ 10 ^ k := by
  have hk' : (List.range 1100).find? (fun j => 10 ^ j % d == 0) = some k := hk
  have := List.find?_some hk'
  exact Nat.dvd_of_mod_eq_zero (by simpa using this)

/-- Value of the exact magnitude numerator over `10 ^ k`. -/
theorem magVal_eq (q : ℚ) (k : ℕ) (hdvd : q.den ∣ 10 ^ k) :
    ((q.num.natAbs * 10 ^ k / q.den : ℕ) : ℚ) / 10 ^ k
      = (q.num.natAbs : ℚ) / (q.den : ℚ) := by
  have hden : ((q.den : ℚ)) ≠ 0 := Nat.cast_ne_zero.mpr q.den_nz
  have h10 : ((10:ℚ) ^ k) ≠ 0 := by positivity
  rw [Nat.cast_div (Dvd.dvd.mul_left hdvd _) hden]
  push_cast
  field_simp
  ring

/-- C10: `parseStageOrdinal` is the identity on finite numeric inputs: the
stringified number fails the stage-pattern and numeral-table branches and is
recovered exactly by the final float parse.  The hypothesis `decimalRep q`
states that the rational has a terminating decimal expansion, which holds
for every value a finite JS float can take. -/
theorem parseStageOrdinal_numeric_id (q : ℚ) (h : decimalRep q = true) :
    parseStageOrdinal (.num (.fin q)) = .fin q := by
  by_cases hq0 : q = 0
  · subst hq0
    have h1 : parseStageOrdinal (.num (.fin 0))
        = .fin ((digitsVal ['0'] : ℚ) / 10 ^ (0:ℕ) * (10:ℚ) ^ (0:ℤ)) := rfl
    rw [h1, show digitsVal ['0'] = 0 from rfl]
    norm_num
  · have h' : (findPow10 q.den).isSome = true := h
    obtain ⟨k, hk⟩ := Option.isSome_iff_exists.mp h'
    have hdvd : q.den ∣ 10 ^ k := findPow10_dvd hk
    have hstr : numToString (.fin q)
        = (if q < 0 then '-' :: magStr k (q.num.natAbs * 10 ^ k / q.den)
           else magStr k (q.num.natAbs * 10 ^ k / q.den)) := by
      simp only [numToString]
      rw [if_neg hq0, hk]
    have hnum : ∀ c ∈ (if q < 0 then '-' :: magStr k (q.num.natAbs * 10 ^ k / q.den)
        else magStr k (q.num.natAbs * 10 ^ k / q.den)), NumChar c := by
      split
      · intro c hc
        rcases List.mem_cons.mp hc with rfl | hc
        · exact Or.inl rfl
        · exact mem_magStr hc
      · intro c hc
        exact mem_magStr hc
    have hjss : jsToString (JSVal.num (JSNum.fin q))
        = (if q < 0 then '-' :: magStr k (q.num.natAbs * 10 ^ k / q.den)
           else magStr k (q.num.natAbs * 10 ^ k / q.den)) := hstr
    rw [parseStageOrdinal_eq_branches _ (by simp) (by simp) (by simp), hjss]
    rw [stageSearch_eq_none (fun c hc => (numChar_props (hnum c hc)).2.2.1)]
    rw [jsTrim_eq_self (fun c hc => (numChar_props (hnum c hc)).1)]
    rw [map_eq_self_of (fun c hc => (numChar_props (hnum c hc)).2.1)]
    rw [romanLookup_none hnum]
    have hpfneg : jsParseFloat ('-' :: magStr k (q.num.natAbs * 10 ^ k / q.den))
        = .fin (-(((q.num.natAbs * 10 ^ k / q.den : ℕ) : ℚ) / 10 ^ k)) := by
      simpa using jsParseFloat_round k (q.num.natAbs * 10 ^ k / q.den) true
    have hpfpos : jsParseFloat (magStr k (q.num.natAbs * 10 ^ k / q.den))
        = .fin (((q.num.natAbs * 10 ^ k / q.den : ℕ) : ℚ) / 10 ^ k) := by
      simpa using jsParseFloat_round k (q.num.natAbs * 10 ^ k / q.den) false
    by_cases hqn : q < 0
    · rw [if_pos hqn, hpfneg]
      show JSNum.fin (-(((q.num.natAbs * 10 ^ k / q.den : ℕ) : ℚ) / 10 ^ k)) = .fin q
      rw [magVal_eq q k hdvd]
      have habs : ((q.num.natAbs : ℚ)) = -(q.num : ℚ) := by
        rw [Int.cast_natAbs]
        exact_mod_cast abs_of_nonpos (le_of_lt (Rat.num_neg.mpr hqn))
      rw [habs, neg_div, neg_neg, Rat.num_div_den]
    · rw [if_neg hqn, hpfpos]
      show JSNum.fin (((q.num.natAbs * 10 ^ k / q.den : ℕ) : ℚ) / 10 ^ k) = .fin q
      rw [magVal_eq q k hdvd]
      have habs : ((q.num.natAbs : ℚ)) = (q.num : ℚ) := by
        rw [Int.cast_natAbs]
        exact_mod_cast abs_of_nonneg (Rat.num_nonneg.mpr (not_lt.mp hqn))
      rw [habs, Rat.num_div_den]

/-- Witness for C10 at the non-ordinal value -3.5. -/
theorem parseStageOrdinal_numeric_id_witness :
    decimalRep (-7/2 : ℚ) = true
    ∧ parseStageOrdinal (.num (.fin (-7/2))) = .fin (-7/2) := by
  have h : decimalRep (-7/2 : ℚ) = true := by
    norm_num [decimalRep, findPow10]
    exact ⟨1, by norm_num, by norm_num⟩
  exact ⟨h, parseStageOrdinal_numeric_id (-7/2) h⟩

/-- A scalar cell value of a parsed record: null, number, or string. -/
inductive Scalar where
  | null
  | num (j : JSNum)
  | str (s : Str)
deriving DecidableEq, Repr

/-- A record models a JS object as its insertion-ordered key/value list. -/
abbrev CSVRecord := List (Str × Scalar)

/-- JS object assignment `row[k] = v`: overwrite the existing entry in place
or append a new one. -/
def objSet : CSVRecord → Str → Scalar → CSVRecord
  | [], k, v => [(k, v)]
  | (k', v') :: rest, k, v =>
    if k' = k then (k, v) :: rest else (k', v') :: objSet rest k v

/-- Model of `String.prototype.split` on a single separator character. -/
def splitOnChar (sep : Char) : Str → List Str
  | [] => [[]]
  | c :: rest =>
    match splitOnChar sep rest with
    | [] => [[]]
    | f :: fs => if c = sep then [] :: f :: fs else (c :: f) :: fs

/-- Model of `Array.prototype.join` with a one-character separator. -/
def joinSep (sep : Char) : List Str → Str
  | [] => []
  | [l] => l
  | l :: l2 :: rest => l ++ sep :: joinSep sep (l2 :: rest)

/-- The double-quote character (written numerically to keep the source
readable). -/
def quoteChar : Char := Char.ofNat 34

/-- Quote-aware scan of one CSV line (the loop of `parseCSVLine`): a double
quote toggles quote mode, an unquoted comma ends the field, and each pushed
field is trimmed. -/
def csvLineGo : Str → Bool → Str → List Str
  | [], _, cur => [jsTrim cur]
  | c :: rest, q, cur =>
    if c = quoteChar then csvLineGo rest (!q) cur
    else if c = ',' ∧ q = false then jsTrim cur :: csvLineGo rest false []
    else csvLineGo rest q (cur ++ [c])

/-- Embedding of `parseCSVLine`. -/
def parseCSVLine (line : Str) : List Str := csvLineGo line false []

/-- Field coercion of `parseCSV`: a missing value, the empty string, `NA` or
`NaN` become null; text accepted by `Number()` becomes that number; anything
else stays the (trimmed) string. -/
def coerceField (v : Option Str) : Scalar :=
  match v with
  | none => .null
  | some s =>
    let value := jsTrim s
    if value = [] ∨ value = "NA".toList ∨ value = "NaN".toList then .null
    else
      match jsNumber value with
      | .nan => .str value
      | r => .num r

/-- One record of `parseCSV`: `headers.forEach((header, idx) =>
row[header] = coerce(values[idx]))`, walking the values positionally. -/
def rowOf : List Str → List Str → CSVRecord → CSVRecord
  | [], _, row => row
  | h :: hs, values, row =>
    rowOf hs (values.drop 1) (objSet row h (coerceField values.head?))

/-- Embedding of `parseCSV`: trim the text, split into lines, take the first
line as the header, and build one record per remaining line. -/
def parseCSV (text : Str) : List CSVRecord :=
  match splitOnChar '\n' (jsTrim text) with
  | [] => []
  | headerLine :: rest =>
    rest.map (fun line => rowOf (parseCSVLine headerLine) (parseCSVLine line) [])

/-- Rendering of one cell on export: empty for null/absent, the value quoted
when it is a string containing the separator, else its plain string form. -/
def renderCell (v : Option Scalar) : Str :=
  match v with
  | none => []
  | some .null => []
  | some (.num j) => numToString j
  | some (.str s) => if s.contains ',' then quoteChar :: s ++ [quoteChar] else s

/-- The raw characters the line scanner accumulates for a cell (the quotes
of a quoted cell are toggles, not content). -/
def cellContent (v : Option Scalar) : Str :=
  match v with
  | none => []
  | some .null => []
  | some (.num j) => numToString j
  | some (.str s) => s

/-- One exported data row. -/
def renderRow (headers : List Str) (row : CSVRecord) : Str :=
  joinSep ',' (headers.map (fun h => renderCell (row.lookup h)))

/-- Embedding of `exportToCSV`'s text construction (the browser download
mechanics are not modelled): `none` models the early return on an empty
dataset, a no-op producing no text. -/
def exportToCSVText (data : List CSVRecord) : Option Str :=
  match data with
  | [] => none
  | first :: _ =>
    some (joinSep '\n'
      (joinSep ',' (first.map Prod.fst)
        :: data.map (renderRow (first.map Prod.fst))))

/-- Both ends of the string are free of whitespace. -/
def noWsEnds (s : Str) : Bool :=
  (match s with
   | [] => true
   | c :: _ => !jsWhitespace c)
  && (match s.getLast? with
      | none => true
      | some c => !jsWhitespace c)

/-- Keys that survive the export/re-parse cycle: nonempty, no surrounding
whitespace, and free of separator, quote and newline characters. -/
def goodKey (k : Str) : Bool :=
  !k.isEmpty && noWsEnds k && !k.contains ',' && !k.contains quoteChar
    && !k.contains '\n'

/-- Values that survive the cycle: null; a finite number with terminating
decimal expansion; or a nonempty string with no surrounding whitespace, no
quote or newline characters, distinct from the null tokens, and rejected by
numeric conversion. -/
def goodVal : Scalar → Bool
  | .null => true
  | .num (.fin q) => decimalRep q
  | .num _ => false
  | .str s =>
    !s.isEmpty && noWsEnds s && !s.contains quoteChar && !s.contains '\n'
      && !(s == "NA".toList) && !(s == "NaN".toList)
      && (match jsNumber s with
          | .nan => true
          | _ => false)

/-- Assigning a fresh key appends the entry. -/
theorem objSet_fresh (row : CSVRecord) (k : Str) (v : Scalar)
    (h : ∀ p ∈ row, p.1 ≠ k) : objSet row k v = row ++ [(k, v)] := by
  induction row with
  | nil => rfl
  | cons p rest ih =>
    obtain ⟨k', v'⟩ := p
    rw [objSet, if_neg (h (k', v') (List.mem_cons_self _ _)),
      ih (fun p hp => h p (List.mem_cons_of_mem _ hp)), List.cons_append]

/-- The record the header fold builds, described positionally. -/
def zipRow : List Str → List Str → CSVRecord
  | [], _ => []
  | h :: hs, values => (h, coerceField values.head?) :: zipRow hs (values.drop 1)

/-- With distinct headers the fold is the positional pairing. -/
theorem rowOf_eq_zipRow (headers : List Str) :
    ∀ (values : List Str) (acc : CSVRecord), headers.Nodup →
      (∀ p ∈ acc, p.1 ∉ headers) →
      rowOf headers values acc = acc ++ zipRow headers values := by
  induction headers with
  | nil =>
    intro values acc _ _
    simp [rowOf, zipRow]
  | cons h hs ih =>
    intro values acc hnd hacc
    rw [rowOf, zipRow,
      objSet_fresh acc h _ (fun p hp hk => hacc p hp (hk ▸ List.mem_cons_self h hs))]
    rw [ih (values.drop 1) _ (List.nodup_cons.mp hnd).2 ?_]
    · rw [List.append_assoc]
      rfl
    · intro p hp
      rcases List.mem_append.mp hp with hp | hp
      · exact fun hm => hacc p hp (List.mem_cons_of_mem h hm)
      · have hpe : p = (h, coerceField values.head?) := by simpa using hp
        rw [hpe]
        exact (List.nodup_cons.mp hnd).1

/-- The positional pairing's keys are the headers. -/
theorem zipRow_keys (headers : List Str) :
    ∀ values, (zipRow headers values).map Prod.fst = headers := by
  induction headers with
  | nil => intro values; rfl
  | cons h hs ih =>
    intro values
    rw [zipRow, List.map_cons, ih]

/-- Looking up the i-th header yields the coercion of the i-th value. -/
theorem zipRow_lookup (headers : List Str) :
    ∀ (values : List Str) (i : ℕ) (h : Str), headers.Nodup →
      headers[i]? = some h →
      (zipRow headers values).lookup h = some (coerceField values[i]?) := by
  induction headers with
  | nil =>
    intro values i h _ hh
    simp at hh
  | cons h0 hs ih =>
    intro values i h hnd hh
    cases i with
    | zero =>
      have he : h0 = h := by simpa using hh
      subst he
      rw [zipRow]
      have hv : values.head? = values[0]? := by cases values <;> simp
      simp [List.lookup, hv]
    | succ i =>
      have hh' : hs[i]? = some h := by simpa using hh
      have hmem : h ∈ hs := by
        have hlt : i < hs.length := by
          by_contra hc
          rw [List.getElem?_eq_none (not_lt.mp hc)] at hh'
          exact Option.noConfusion hh'
        have h1 : hs[i]? = some hs[i] := List.getElem?_eq_getElem hlt
        have h2 : hs[i] = h := by
          rw [h1] at hh'
          exact Option.some_inj.mp hh'
        exact h2 ▸ List.getElem_mem hlt
      have hne : (h == h0) = false := by
        apply beq_eq_false_iff_ne.mpr
        intro he
        exact (List.nodup_cons.mp hnd).1 (he ▸ hmem)
      rw [zipRow, List.lookup, hne, ih (values.drop 1) i h (List.nodup_cons.mp hnd).2 hh']
      rw [List.getElem?_drop, Nat.add_comm 1 i]

/-- C4 (amended): field coercion sends a missing value, the empty string,
`NA` and `NaN` to null; text fully accepted by JS numeric conversion
(decimal, hex/octal/binary, or Infinity) becomes that number; all other text
stays the trimmed string.  With distinct headers, every parsed record's key
list is exactly the header list (so values beyond the header length are
dropped), and a header position at or beyond the value count maps to null. -/
theorem parseCSV_claim :
    (coerceField none = .null)
    ∧ (coerceField (some []) = .null)
    ∧ (coerceField (some "NA".toList) = .null)
    ∧ (coerceField (some "NaN".toList) = .null)
    ∧ (∀ s : Str, jsTrim s ≠ [] → jsTrim s ≠ "NA".toList → jsTrim s ≠ "NaN".toList →
        jsNumber (jsTrim s) = .nan → coerceField (some s) = .str (jsTrim s))
    ∧ (∀ (s : Str) (r : JSNum), jsTrim s ≠ [] → jsTrim s ≠ "NA".toList →
        jsTrim s ≠ "NaN".toList → jsNumber (jsTrim s) = r → r ≠ .nan →
        coerceField (some s) = .num r)
    ∧ (∀ (headers values : List Str), headers.Nodup →
        (rowOf headers values []).map Prod.fst = headers)
    ∧ (∀ (headers values : List Str) (i : ℕ) (h : Str), headers.Nodup →
        headers[i]? = some h → values.length ≤ i →
        (rowOf headers values []).lookup h = some .null) := by
  refine ⟨rfl, rfl, rfl, rfl, ?_, ?_, ?_, ?_⟩
  · intro s h1 h2 h3 h4
    show (if jsTrim s = [] ∨ jsTrim s = "NA".toList ∨ jsTrim s = "NaN".toList
          then Scalar.null
          else match jsNumber (jsTrim s) with
            | .nan => Scalar.str (jsTrim s)
            | r => Scalar.num r) = Scalar.str (jsTrim s)
    rw [if_neg (by push_neg; exact ⟨h1, h2, h3⟩)]
    rw [h4]
  · intro s r h1 h2 h3 h4 h5
    show (if jsTrim s = [] ∨ jsTrim s = "NA".toList ∨ jsTrim s = "NaN".toList
          then Scalar.null
          else match jsNumber (jsTrim s) with
            | .nan => Scalar.str (jsTrim s)
            | r => Scalar.num r) = Scalar.num r
    rw [if_neg (by push_neg; exact ⟨h1, h2, h3⟩)]
    rw [h4]
    cases r with
    | nan => exact absurd rfl h5
    | inf => rfl
    | ninf => rfl
    | fin q => rfl
  · intro headers values hnd
    rw [rowOf_eq_zipRow headers values [] hnd (by intro p hp; cases hp)]
    rw [List.nil_append, zipRow_keys]
  · intro headers values i h hnd hh hlen
    rw [rowOf_eq_zipRow headers values [] hnd (by intro p hp; cases hp)]
    rw [List.nil_append, zipRow_lookup headers values i h hnd hh]
    rw [List.getElem?_eq_none hlen]
    rfl

/-- Witness for C4: the record of a short row over two headers carries
exactly the header keys. -/
theorem parseCSV_claim_witness :
    (rowOf ["a".toList, "b".toList] ["1".toList] []).map Prod.fst
      = ["a".toList, "b".toList] :=
  parseCSV_claim.2.2.2.2.2.2.1 ["a".toList, "b".toList] ["1".toList] (by decide)

/-- C4 counterexample: the field "0x10" does not parse as a decimal number,
yet the code stores the number 16 (JS `Number` accepts hexadecimal), not the
raw string. -/
theorem parseCSV_hex_cex :
    parseCSV "h\n0x10".toList = [[("h".toList, Scalar.num (.fin 16))]]
    ∧ Scalar.num (JSNum.fin 16) ≠ Scalar.str "0x10".toList := by
  constructor
  · have h1 : parseCSV "h\n0x10".toList
        = [[("h".toList, Scalar.num (.fin ((16:ℕ):ℚ)))]] := rfl
    rw [h1]
    norm_num
  · intro h
    exact Scalar.noConfusion h

/-- Numeric characters are not radix tags. -/
theorem numChar_not_tag {c : Char} (h : NumChar c) :
    ¬(c = 'x' ∨ c = 'X' ∨ c = 'o' ∨ c = 'O' ∨ c = 'b' ∨ c = 'B') := by
  obtain ⟨-, -, -, -, -, h1, h2, h3, h4, h5, h6⟩ := numChar_props h
  rintro (rfl | rfl | rfl | rfl | rfl | rfl)
  · exact h1 rfl
  · exact h2 rfl
  · exact h3 rfl
  · exact h4 rfl
  · exact h5 rfl
  · exact h6 rfl

/-- Numeric characters are not CSV structure characters. -/
theorem numChar_not_csv {c : Char} (h : NumChar c) :
    c ≠ ',' ∧ c ≠ quoteChar ∧ c ≠ '\n' := by
  rcases h with rfl | rfl | ⟨d, hd, rfl⟩
  · refine ⟨by decide, by decide, by decide⟩
  · refine ⟨by decide, by decide, by decide⟩
  · interval_cases d <;> exact ⟨by decide, by decide, by decide⟩

/-- When the radix-tag test cannot fire, `Number()` is the full decimal
conversion. -/
theorem jsNumber_eq_decFull {t : Str} (hne : t ≠ [])
    (htr : jsTrim t = t)
    (hc : ∀ z c rest, t = z :: c :: rest →
      ¬(z = '0' ∧ (c = 'x' ∨ c = 'X' ∨ c = 'o' ∨ c = 'O' ∨ c = 'b' ∨ c = 'B'))) :
    jsNumber t = decFull t := by
  cases t with
  | nil => exact absurd rfl hne
  | cons z t' =>
    cases t' with
    | nil =>
      unfold jsNumber
      rw [htr]
      rfl
    | cons c rest =>
      unfold jsNumber
      rw [htr]
      rw [if_neg (by simp)]
      show (if z = '0' ∧ (c = 'x' ∨ c = 'X' ∨ c = 'o' ∨ c = 'O' ∨ c = 'b' ∨ c = 'B')
            then
              if (¬ rest.isEmpty) ∧ rest.all (radixDigit (radixBase c)) then
                JSNum.fin ((rest.foldl (fun a ch => a * radixBase c + radixDigitVal ch) 0 : ℕ) : ℚ)
              else JSNum.nan
            else decFull (z :: c :: rest)) = decFull (z :: c :: rest)
      rw [if_neg (hc z c rest rfl)]

/-- The full decimal conversion recovers a signed magnitude rendering. -/
theorem decFull_round (k n : ℕ) (neg : Bool) :
    decFull (if neg then '-' :: magStr k n else magStr k n)
      = .fin (if neg then -((n:ℚ) / 10 ^ k) else (n:ℚ) / 10 ^ k) := by
  obtain ⟨d, t, hd, hht⟩ := magStr_head k n
  obtain ⟨d1, d2, htw, hfs, hne, hmv⟩ := magStr_scan k n
  have hsp : signSplit (if neg then '-' :: magStr k n else magStr k n)
      = (neg, magStr k n) := by
    cases neg
    · show signSplit (magStr k n) = (false, magStr k n)
      rw [hht]
      exact signSplit_digit hd t
    · show signSplit ('-' :: magStr k n) = (true, magStr k n)
      rfl
  have hinf : ¬(magStr k n = "Infinity".toList) := by
    rw [hht, show ("Infinity".toList : Str) = 'I' :: "nfinity".toList from rfl]
    intro heq
    injection heq with h1 _
    exact (digitChar_props hd).2.2.2.2.2.2.2.2 h1
  unfold decFull
  rw [hsp]
  simp only [htw, hfs, hne, if_neg hinf]
  have hexp : expFull ([] : Str) = some 0 := rfl
  simp only [Bool.false_and, hexp, hmv, zpow_zero, mul_one]
  simp

/-- `Number()` recovers a signed magnitude rendering. -/
theorem jsNumber_round (k n : ℕ) (neg : Bool) :
    jsNumber (if neg then '-' :: magStr k n else magStr k n)
      = .fin (if neg then -((n:ℚ) / 10 ^ k) else (n:ℚ) / 10 ^ k) := by
  have hnum : ∀ c ∈ (if neg then '-' :: magStr k n else magStr k n), NumChar c := by
    cases neg
    · intro c hc
      exact mem_magStr hc
    · intro c hc
      rcases List.mem_cons.mp hc with rfl | hc
      · exact Or.inl rfl
      · exact mem_magStr hc
  have htr : jsTrim (if neg then '-' :: magStr k n else magStr k n)
      = (if neg then '-' :: magStr k n else magStr k n) :=
    jsTrim_eq_self (fun c hc => (numChar_props (hnum c hc)).1)
  have hne : (if neg then '-' :: magStr k n else magStr k n) ≠ [] := by
    obtain ⟨d, t, hd, hht⟩ := magStr_head k n
    cases neg
    · show magStr k n ≠ []
      rw [hht]
      exact List.cons_ne_nil _ _
    · exact List.cons_ne_nil _ _
  rw [jsNumber_eq_decFull hne htr ?_, decFull_round]
  intro z c rest hteq hzc
  have hcm : c ∈ (if neg then '-' :: magStr k n else magStr k n) := by
    rw [hteq]
    simp
  exact numChar_not_tag (hnum c hcm) hzc.2

/-- The signed exact magnitude evaluates back to the rational itself. -/
theorem signedMagVal (q : ℚ) (k : ℕ) (hdvd : q.den ∣ 10 ^ k) :
    (if q < 0 then -(((q.num.natAbs * 10 ^ k / q.den : ℕ) : ℚ) / 10 ^ k)
     else ((q.num.natAbs * 10 ^ k / q.den : ℕ) : ℚ) / 10 ^ k) = q := by
  by_cases hqn : q < 0
  · rw [if_pos hqn, magVal_eq q k hdvd]
    have habs : ((q.num.natAbs : ℚ)) = -(q.num : ℚ) := by
      rw [Int.cast_natAbs]
      exact_mod_cast abs_of_nonpos (le_of_lt (Rat.num_neg.mpr hqn))
    rw [habs, neg_div, neg_neg, Rat.num_div_den]
  · rw [if_neg hqn, magVal_eq q k hdvd]
    have habs : ((q.num.natAbs : ℚ)) = (q.num : ℚ) := by
      rw [Int.cast_natAbs]
      exact_mod_cast abs_of_nonneg (Rat.num_nonneg.mpr (not_lt.mp hqn))
    rw [habs, Rat.num_div_den]

/-- `Number()` inverts the number-to-string conversion on finite values with
terminating decimal expansion. -/
theorem jsNumber_numToString (q : ℚ) (h : decimalRep q = true) :
    jsNumber (numToString (.fin q)) = .fin q := by
  by_cases hq0 : q = 0
  · subst hq0
    have h1 : jsNumber (numToString (.fin 0))
        = .fin ((digitsVal ['0'] : ℚ) / 10 ^ (0:ℕ) * (10:ℚ) ^ ((0:ℤ))) := rfl
    rw [h1, show digitsVal ['0'] = 0 from rfl]
    norm_num
  · have h' : (findPow10 q.den).isSome = true := h
    obtain ⟨k, hk⟩ := Option.isSome_iff_exists.mp h'
    have hdvd : q.den ∣ 10 ^ k := findPow10_dvd hk
    have hstr : numToString (.fin q)
        = (if q < 0 then '-' :: magStr k (q.num.natAbs * 10 ^ k / q.den)
           else magStr k (q.num.natAbs * 10 ^ k / q.den)) := by
      simp only [numToString]
      rw [if_neg hq0, hk]
    rw [hstr]
    by_cases hqn : q < 0
    · rw [if_pos hqn,
        show jsNumber ('-' :: magStr k (q.num.natAbs * 10 ^ k / q.den))
          = .fin (-(((q.num.natAbs * 10 ^ k / q.den : ℕ) : ℚ) / 10 ^ k)) from by
            simpa using jsNumber_round k (q.num.natAbs * 10 ^ k / q.den) true]
      have := signedMagVal q k hdvd
      rw [if_pos hqn] at this
      rw [this]
    · rw [if_neg hqn,
        show jsNumber (magStr k (q.num.natAbs * 10 ^ k / q.den))
          = .fin (((q.num.natAbs * 10 ^ k / q.den : ℕ) : ℚ) / 10 ^ k) from by
            simpa using jsNumber_round k (q.num.natAbs * 10 ^ k / q.den) false]
      have := signedMagVal q k hdvd
      rw [if_neg hqn] at this
      rw [this]

/-- The scanner accumulates a quote-free, comma-free block unchanged. -/
theorem csvLineGo_accum {f : Str} (t : Str) (cur : Str)
    (hq : quoteChar ∉ f) (hcomma : ',' ∉ f) :
    csvLineGo (f ++ t) false cur = csvLineGo t false (cur ++ f) := by
  induction f generalizing cur with
  | nil => rw [List.nil_append, List.append_nil]
  | cons c f ih =>
    have hcq : ¬(c = quoteChar) := by
      intro he
      subst he
      exact hq (List.mem_cons_self _ _)
    have hcc : ¬(c = ',' ∧ (false : Bool) = false) := by
      rintro ⟨he, -⟩
      subst he
      exact hcomma (List.mem_cons_self _ _)
    rw [List.cons_append, csvLineGo, if_neg hcq, if_neg hcc]
    rw [ih (cur ++ [c]) (fun hm => hq (List.mem_cons_of_mem c hm))
      (fun hm => hcomma (List.mem_cons_of_mem c hm))]
    rw [List.append_assoc]
    rfl

/-- In quote mode the scanner accumulates any quote-free block, commas
included. -/
theorem csvLineGo_accum_q {f : Str} (t : Str) (cur : Str)
    (hq : quoteChar ∉ f) :
    csvLineGo (f ++ t) true cur = csvLineGo t true (cur ++ f) := by
  induction f generalizing cur with
  | nil => rw [List.nil_append, List.append_nil]
  | cons c f ih =>
    have hcq : ¬(c = quoteChar) := by
      intro he
      subst he
      exact hq (List.mem_cons_self _ _)
    have hcc : ¬(c = ',' ∧ (true : Bool) = false) := by
      rintro ⟨-, h2⟩
      exact Bool.noConfusion h2
    rw [List.cons_append, csvLineGo, if_neg hcq, if_neg hcc]
    rw [ih (cur ++ [c]) (fun hm => hq (List.mem_cons_of_mem c hm))]
    rw [List.append_assoc]
    rfl

/-- An unquoted comma pushes the trimmed field. -/
theorem csvLineGo_comma (t cur : Str) :
    csvLineGo (',' :: t) false cur = jsTrim cur :: csvLineGo t false [] := by
  rw [csvLineGo, if_neg (by decide), if_pos ⟨rfl, rfl⟩]

/-- A quote toggles quote mode. -/
theorem csvLineGo_quote (t : Str) (q : Bool) (cur : Str) :
    csvLineGo (quoteChar :: t) q cur = csvLineGo t (!q) cur := by
  rw [csvLineGo, if_pos rfl]

/-- A rendered cell and the content the scanner extracts from it: either the
cell is the content itself (no quotes, no commas) or the quoted form of a
quote-free content. -/
def CellOK (cell content : Str) : Prop :=
  (cell = content ∧ quoteChar ∉ content ∧ ',' ∉ content)
  ∨ (cell = quoteChar :: content ++ [quoteChar] ∧ quoteChar ∉ content)

/-- Scanning one well-formed cell accumulates its content. -/
theorem cell_step {cell content : Str} (t cur : Str) (h : CellOK cell content) :
    csvLineGo (cell ++ t) false cur = csvLineGo t false (cur ++ content) := by
  rcases h with ⟨rfl, hq, hc⟩ | ⟨rfl, hq⟩
  · exact csvLineGo_accum t cur hq hc
  · have h1 : (quoteChar :: content ++ [quoteChar]) ++ t
        = quoteChar :: (content ++ (quoteChar :: t)) := by
      simp
    rw [h1, csvLineGo_quote]
    show csvLineGo (content ++ quoteChar :: t) true cur = _
    rw [csvLineGo_accum_q (quoteChar :: t) cur hq, csvLineGo_quote]
    rfl

/-- Scanning a joined list of well-formed cells yields the trimmed contents
(the accumulator prefixing the first). -/
theorem scan_cells :
    ∀ {cells contents : List Str}, List.Forall₂ CellOK cells contents →
      ∀ cur : Str,
      csvLineGo (joinSep ',' cells) false cur
        = (match contents with
           | [] => [jsTrim cur]
           | c0 :: rest => jsTrim (cur ++ c0) :: rest.map jsTrim) := by
  intro cells contents h
  induction h with
  | nil => intro cur; rfl
  | @cons cell content cells contents hcell htail ih =>
    intro cur
    cases htail with
    | nil =>
      show csvLineGo (joinSep ',' [cell]) false cur = [jsTrim (cur ++ content)]
      rw [show joinSep ',' [cell] = cell from rfl]
      rw [show (cell : Str) = cell ++ [] from (List.append_nil cell).symm]
      rw [cell_step [] cur hcell]
      rfl
    | @cons cell2 content2 cells2 contents2 hcell2 htail2 =>
      rw [show joinSep ',' (cell :: cell2 :: cells2)
          = cell ++ ',' :: joinSep ',' (cell2 :: cells2) from rfl]
      rw [cell_step _ cur hcell, csvLineGo_comma]
      rw [ih []]
      simp

/-- A separator-free string splits to itself. -/
theorem splitOnChar_no_sep {sep : Char} {l : Str} (h : sep ∉ l) :
    splitOnChar sep l = [l] := by
  induction l with
  | nil => rfl
  | cons c t ih =>
    have hcs : ¬(c = sep) := by
      intro he
      subst he
      exact h (List.mem_cons_self _ _)
    rw [splitOnChar, ih (fun hm => h (List.mem_cons_of_mem c hm))]
    show (if c = sep then [] :: t :: [] else (c :: t) :: []) = [c :: t]
    rw [if_neg hcs]

/-- The split is never empty. -/
theorem splitOnChar_ne_nil (sep : Char) (l : Str) : splitOnChar sep l ≠ [] := by
  cases l with
  | nil => exact List.cons_ne_nil _ _
  | cons c t =>
    rw [splitOnChar]
    cases h : splitOnChar sep t with
    | nil => exact List.cons_ne_nil _ _
    | cons f fs =>
      show (if c = sep then [] :: f :: fs else (c :: f) :: fs) ≠ []
      split <;> exact List.cons_ne_nil _ _

/-- Splitting after a separator-free block peels that block off. -/
theorem splitOnChar_append_sep {sep : Char} {l : Str} (t : Str) (h : sep ∉ l) :
    splitOnChar sep (l ++ sep :: t) = l :: splitOnChar sep t := by
  induction l with
  | nil =>
    rw [List.nil_append, splitOnChar]
    obtain ⟨f, fs, heq⟩ := List.exists_cons_of_ne_nil (splitOnChar_ne_nil sep t)
    show (match splitOnChar sep t with
          | [] => [[]]
          | f :: fs => if sep = sep then [] :: f :: fs else (sep :: f) :: fs)
        = [] :: splitOnChar sep t
    rw [heq]
    show (if sep = sep then [] :: f :: fs else (sep :: f) :: fs) = [] :: f :: fs
    rw [if_pos rfl]
  | cons c l' ih =>
    have hcs : ¬(c = sep) := by
      intro he
      subst he
      exact h (List.mem_cons_self _ _)
    rw [List.cons_append, splitOnChar, ih (fun hm => h (List.mem_cons_of_mem c hm))]
    show (if c = sep then [] :: l' :: splitOnChar sep t
          else (c :: l') :: splitOnChar sep t) = (c :: l') :: splitOnChar sep t
    rw [if_neg hcs]

/-- Splitting inverts joining for separator-free parts. -/
theorem splitOnChar_joinSep (sep : Char) :
    ∀ (ls : List Str), ls ≠ [] → (∀ l ∈ ls, sep ∉ l) →
      splitOnChar sep (joinSep sep ls) = ls := by
  intro ls
  induction ls with
  | nil => intro h; exact absurd rfl h
  | cons l rest ih =>
    intro _ hsep
    cases rest with
    | nil => exact splitOnChar_no_sep (hsep l (List.mem_cons_self l []))
    | cons l2 more =>
      rw [show joinSep sep (l :: l2 :: more)
          = l ++ sep :: joinSep sep (l2 :: more) from rfl]
      rw [splitOnChar_append_sep _ (hsep l (List.mem_cons_self l _))]
      rw [ih (List.cons_ne_nil l2 more)
        (fun x hx => hsep x (List.mem_cons_of_mem l hx))]

/-- Characters of a join come from the separator or the parts. -/
theorem mem_joinSep {sep c : Char} :
    ∀ {ls : List Str}, c ∈ joinSep sep ls → c = sep ∨ ∃ l ∈ ls, c ∈ l := by
  intro ls
  induction ls with
  | nil => intro h; cases h
  | cons l rest ih =>
    intro h
    cases rest with
    | nil =>
      exact Or.inr ⟨l, List.mem_cons_self l [], h⟩
    | cons l2 more =>
      rw [show joinSep sep (l :: l2 :: more)
          = l ++ sep :: joinSep sep (l2 :: more) from rfl] at h
      rcases List.mem_append.mp h with h | h
      · exact Or.inr ⟨l, List.mem_cons_self l _, h⟩
      · rcases List.mem_cons.mp h with rfl | h
        · exact Or.inl rfl
        · rcases ih h with h | ⟨x, hx, hc⟩
          · exact Or.inl h
          · exact Or.inr ⟨x, List.mem_cons_of_mem l hx, hc⟩

/-- Head of a join with a nonempty first part. -/
theorem joinSep_head {sep : Char} {l : Str} (ls : List Str) (hl : l ≠ []) :
    (joinSep sep (l :: ls)).head? = l.head? := by
  cases ls with
  | nil => rfl
  | cons l2 more =>
    rw [show joinSep sep (l :: l2 :: more)
        = l ++ sep :: joinSep sep (l2 :: more) from rfl]
    cases l with
    | nil => exact absurd rfl hl
    | cons c t => rfl

/-- Trimming is the identity when both end characters are not whitespace. -/
theorem jsTrim_eq_self_of_ends {l : Str}
    (h1 : ∀ c, l.head? = some c → jsWhitespace c = false)
    (h2 : ∀ c, l.getLast? = some c → jsWhitespace c = false) :
    jsTrim l = l := by
  unfold jsTrim
  have hd : l.dropWhile jsWhitespace = l := by
    cases l with
    | nil => rfl
    | cons c t =>
      rw [List.dropWhile_cons, h1 c rfl]
      rfl
  rw [hd]
  have hd2 : l.reverse.dropWhile jsWhitespace = l.reverse := by
    cases hrev : l.reverse with
    | nil => rfl
    | cons c t =>
      have hc : l.getLast? = some c := by
        rw [← List.head?_reverse, hrev]
        rfl
      rw [List.dropWhile_cons, h2 c hc]
      rfl
  rw [hd2, List.reverse_reverse]

/-- A member of the last position. -/
theorem mem_of_getLast? {l : Str} {c : Char} (h : l.getLast? = some c) : c ∈ l := by
  rw [← List.head?_reverse] at h
  cases hrev : l.reverse with
  | nil => rw [hrev] at h; exact Option.noConfusion h
  | cons x t =>
    rw [hrev] at h
    have hxc : x = c := by simpa using h
    subst hxc
    rw [← List.mem_reverse, hrev]
    exact List.mem_cons_self x t

/-- Unpacking of the string goodness predicate. -/
theorem goodStr_facts {s : Str} (h : goodVal (.str s) = true) :
    s ≠ [] ∧ noWsEnds s = true ∧ quoteChar ∉ s ∧ '\n' ∉ s
    ∧ s ≠ "NA".toList ∧ s ≠ "NaN".toList ∧ jsNumber s = .nan := by
  simp only [goodVal, Bool.and_eq_true] at h
  obtain ⟨⟨⟨⟨⟨⟨h1, h2⟩, h3⟩, h4⟩, h5⟩, h6⟩, h7⟩ := h
  refine ⟨by simpa using h1, h2, by simpa using h3, by simpa using h4,
    by simpa using h5, by simpa using h6, ?_⟩
  rcases hm : jsNumber s with _ | _ | _ | q
  · rfl
  · rw [hm] at h7; exact Bool.noConfusion h7
  · rw [hm] at h7; exact Bool.noConfusion h7
  · rw [hm] at h7; exact Bool.noConfusion h7

/-- Unpacking of the whitespace-free-ends predicate. -/
theorem noWsEnds_facts {s : Str} (h : noWsEnds s = true) :
    (∀ c, s.head? = some c → jsWhitespace c = false)
    ∧ (∀ c, s.getLast? = some c → jsWhitespace c = false) := by
  simp only [noWsEnds, Bool.and_eq_true] at h
  constructor
  · intro c hc
    cases s with
    | nil => exact Option.noConfusion hc
    | cons x t =>
      have hx : x = c := by simpa using hc
      subst hx
      simpa using h.1
  · intro c hc
    have h2 := h.2
    rw [hc] at h2
    simpa using h2

set_option maxRecDepth 4000 in
/-- Every character of a finite number's rendering is numeric. -/
theorem numToString_fin_numchars (q : ℚ) :
    ∀ c ∈ numToString (.fin q), NumChar c := by
  intro c hc
  rw [show numToString (.fin q)
      = (if q = 0 then ['0']
         else match findPow10 q.den with
           | none => ['0']
           | some k =>
             if q < 0 then '-' :: magStr k (q.num.natAbs * 10 ^ k / q.den)
             else magStr k (q.num.natAbs * 10 ^ k / q.den)) from rfl] at hc
  split at hc
  · have hc0 : c = '0' := by simpa using hc
    exact Or.inr (Or.inr ⟨0, by norm_num, by rw [hc0]; rfl⟩)
  · split at hc
    · have hc0 : c = '0' := by simpa using hc
      exact Or.inr (Or.inr ⟨0, by norm_num, by rw [hc0]; rfl⟩)
    · split at hc
      · rcases List.mem_cons.mp hc with rfl | hc
        · exact Or.inl rfl
        · exact mem_magStr hc
      · exact mem_magStr hc

set_option maxRecDepth 4000 in
/-- A finite number's rendering is nonempty. -/
theorem numToString_fin_ne_nil (q : ℚ) : numToString (.fin q) ≠ [] := by
  show (if q = 0 then ['0']
        else match findPow10 q.den with
          | none => ['0']
          | some k =>
            if q < 0 then '-' :: magStr k (q.num.natAbs * 10 ^ k / q.den)
            else magStr k (q.num.natAbs * 10 ^ k / q.den)) ≠ []
  split
  · simp
  · split
    · simp
    · split
      · exact List.cons_ne_nil _ _
      · obtain ⟨d, t, _, ht⟩ := magStr_head _ _
        rw [ht]
        exact List.cons_ne_nil _ _

/-- Numeric characters are not the letter `N`. -/
theorem numChar_ne_N {c : Char} (h : NumChar c) : c ≠ 'N' := by
  rcases h with rfl | rfl | ⟨d, hd, rfl⟩
  · decide
  · decide
  · interval_cases d <;> decide

/-- Field coercion inverts cell rendering on good values. -/
theorem coerce_back {v : Scalar} (hv : goodVal v = true) :
    coerceField (some (cellContent (some v))) = v := by
  cases v with
  | null => rfl
  | num j =>
    cases j with
    | nan => exact Bool.noConfusion hv
    | inf => exact Bool.noConfusion hv
    | ninf => exact Bool.noConfusion hv
    | fin q =>
      have hrep : decimalRep q = true := hv
      show coerceField (some (numToString (.fin q))) = .num (.fin q)
      have hnum := numToString_fin_numchars q
      have htr : jsTrim (numToString (.fin q)) = numToString (.fin q) :=
        jsTrim_eq_self (fun c hc => (numChar_props (hnum c hc)).1)
      have hne : numToString (.fin q) ≠ [] := numToString_fin_ne_nil q
      have hNA : numToString (.fin q) ≠ "NA".toList := by
        intro he
        have hN : 'N' ∈ numToString (.fin q) := by
          rw [he]
          decide
        exact numChar_ne_N (hnum 'N' hN) rfl
      have hNaN : numToString (.fin q) ≠ "NaN".toList := by
        intro he
        have hN : 'N' ∈ numToString (.fin q) := by
          rw [he]
          decide
        exact numChar_ne_N (hnum 'N' hN) rfl
      show (if jsTrim (numToString (.fin q)) = []
              ∨ jsTrim (numToString (.fin q)) = "NA".toList
              ∨ jsTrim (numToString (.fin q)) = "NaN".toList
            then Scalar.null
            else match jsNumber (jsTrim (numToString (.fin q))) with
              | .nan => Scalar.str (jsTrim (numToString (.fin q)))
              | r => Scalar.num r) = Scalar.num (.fin q)
      rw [htr, if_neg (by push_neg; exact ⟨hne, hNA, hNaN⟩),
        jsNumber_numToString q hrep]
  | str s =>
    obtain ⟨h1, h2, h3, h4, h5, h6, h7⟩ := goodStr_facts hv
    have hends := noWsEnds_facts h2
    have htr : jsTrim s = s := jsTrim_eq_self_of_ends hends.1 hends.2
    show (if jsTrim s = [] ∨ jsTrim s = "NA".toList ∨ jsTrim s = "NaN".toList
          then Scalar.null
          else match jsNumber (jsTrim s) with
            | .nan => Scalar.str (jsTrim s)
            | r => Scalar.num r) = Scalar.str s
    rw [htr, if_neg (by push_neg; exact ⟨h1, h5, h6⟩), h7]

/-- Cell contents are already trimmed for good values. -/
theorem coerce_back_trim {v : Scalar} (hv : goodVal v = true) :
    coerceField (some (jsTrim (cellContent (some v)))) = v := by
  have htr : jsTrim (cellContent (some v)) = cellContent (some v) := by
    cases v with
    | null => rfl
    | num j =>
      cases j with
      | nan => exact Bool.noConfusion hv
      | inf => exact Bool.noConfusion hv
      | ninf => exact Bool.noConfusion hv
      | fin q =>
        exact jsTrim_eq_self
          (fun c hc => (numChar_props (numToString_fin_numchars q c hc)).1)
    | str s =>
      have hends := noWsEnds_facts (goodStr_facts hv).2.1
      exact jsTrim_eq_self_of_ends hends.1 hends.2
  rw [htr]
  exact coerce_back hv

/-- A key of the record looks up to its first bound value, which is a member. -/
theorem lookup_of_mem_keys :
    ∀ (r : CSVRecord) (h : Str), h ∈ r.map Prod.fst →
      ∃ v, r.lookup h = some v ∧ (h, v) ∈ r := by
  intro r
  induction r with
  | nil => intro h hh; cases hh
  | cons p rest ih =>
    obtain ⟨k', v'⟩ := p
    intro h hh
    by_cases he : h = k'
    · subst he
      refine ⟨v', ?_, List.mem_cons_self _ _⟩
      simp [List.lookup]
    · have hne : (h == k') = false := beq_eq_false_iff_ne.mpr he
      have hh' : h ∈ rest.map Prod.fst := by
        rcases List.mem_cons.mp hh with h1 | h1
        · exact absurd h1 he
        · exact h1
      obtain ⟨v, hv, hm⟩ := ih h hh'
      refine ⟨v, ?_, List.mem_cons_of_mem _ hm⟩
      rw [List.lookup, hne, hv]

/-- The positional pairing over mapped values is a direct map. -/
theorem zipRow_map (g : Str → Str) :
    ∀ headers : List Str,
      zipRow headers (headers.map g)
        = headers.map (fun h => (h, coerceField (some (g h)))) := by
  intro headers
  induction headers with
  | nil => rfl
  | cons h hs ih =>
    rw [List.map_cons, zipRow]
    exact congrArg (List.cons (h, coerceField (some (g h)))) ih

/-- Rebuilding each key's value by lookup reproduces the record. -/
theorem lookup_rebuild :
    ∀ (r : CSVRecord), (r.map Prod.fst).Nodup →
      (∀ p ∈ r, coerceField (some (jsTrim (cellContent (some p.2)))) = p.2) →
      (r.map Prod.fst).map
          (fun h => (h, coerceField (some (jsTrim (cellContent (r.lookup h)))))) = r := by
  intro r
  induction r with
  | nil => intro _ _; rfl
  | cons p rest ih =>
    obtain ⟨k0, v0⟩ := p
    intro hnd hco
    rw [List.map_cons, List.map_cons]
    have hl0 : List.lookup k0 ((k0, v0) :: rest) = some v0 := by
      simp [List.lookup]
    have hhead : (k0, coerceField (some (jsTrim (cellContent
        (((k0, v0) :: rest).lookup k0))))) = (k0, v0) := by
      rw [hl0, hco (k0, v0) (List.mem_cons_self _ _)]
    rw [hhead]
    have htail : (rest.map Prod.fst).map
        (fun h => (h, coerceField (some (jsTrim (cellContent
          (((k0, v0) :: rest).lookup h))))))
        = (rest.map Prod.fst).map
        (fun h => (h, coerceField (some (jsTrim (cellContent (rest.lookup h)))))) := by
      apply List.map_congr_left
      intro h hh
      have hne : (h == k0) = false :=
        beq_eq_false_iff_ne.mpr (fun he => (List.nodup_cons.mp hnd).1 (he ▸ hh))
      rw [List.lookup, hne]
    rw [htail, ih (List.nodup_cons.mp hnd).2
      (fun p hp => hco p (List.mem_cons_of_mem _ hp))]

/-- Rendering and content of a good value satisfy the scanner contract. -/
theorem renderCell_ok {v : Scalar} (hv : goodVal v = true) :
    CellOK (renderCell (some v)) (cellContent (some v)) := by
  cases v with
  | null => exact Or.inl ⟨rfl, List.not_mem_nil _, List.not_mem_nil _⟩
  | num j =>
    cases j with
    | nan => exact Bool.noConfusion hv
    | inf => exact Bool.noConfusion hv
    | ninf => exact Bool.noConfusion hv
    | fin q =>
      left
      refine ⟨rfl, ?_, ?_⟩
      · intro hm
        exact (numChar_not_csv (numToString_fin_numchars q _ hm)).2.1 rfl
      · intro hm
        exact (numChar_not_csv (numToString_fin_numchars q _ hm)).1 rfl
  | str s =>
    obtain ⟨h1, h2, h3, h4, h5, h6, h7⟩ := goodStr_facts hv
    show CellOK (if s.contains ',' then quoteChar :: s ++ [quoteChar] else s) s
    by_cases hc : s.contains ','
    · rw [if_pos hc]
      exact Or.inr ⟨rfl, h3⟩
    · rw [if_neg hc]
      refine Or.inl ⟨rfl, h3, ?_⟩
      intro hm
      exact hc (by simpa using hm)

/-- A rendered cell contains no newline. -/
theorem renderCell_no_nl {v : Scalar} (hv : goodVal v = true) :
    '\n' ∉ renderCell (some v) := by
  cases v with
  | null => simp [renderCell]
  | num j =>
    cases j with
    | nan => exact Bool.noConfusion hv
    | inf => exact Bool.noConfusion hv
    | ninf => exact Bool.noConfusion hv
    | fin q =>
      intro hm
      exact (numChar_not_csv (numToString_fin_numchars q _ hm)).2.2 rfl
  | str s =>
    obtain ⟨h1, h2, h3, h4, h5, h6, h7⟩ := goodStr_facts hv
    show '\n' ∉ (if s.contains ',' then quoteChar :: s ++ [quoteChar] else s)
    split
    · intro hm
      rcases List.mem_cons.mp hm with he | hm
      · exact absurd he.symm (by decide)
      · rcases List.mem_append.mp hm with hm | hm
        · exact h4 hm
        · have : '\n' = quoteChar := by simpa using hm
          exact absurd this (by decide)
    · exact h4

/-- A rendered cell never ends in whitespace. -/
theorem renderCell_last_not_ws {v : Scalar} (hv : goodVal v = true) :
    ∀ c, (renderCell (some v)).getLast? = some c → jsWhitespace c = false := by
  cases v with
  | null => intro c hc; exact Option.noConfusion hc
  | num j =>
    cases j with
    | nan => exact Bool.noConfusion hv
    | inf => exact Bool.noConfusion hv
    | ninf => exact Bool.noConfusion hv
    | fin q =>
      intro c hc
      exact (numChar_props (numToString_fin_numchars q c (mem_of_getLast? hc))).1
  | str s =>
    obtain ⟨h1, h2, h3, h4, h5, h6, h7⟩ := goodStr_facts hv
    intro c hc
    show jsWhitespace c = false
    rw [show renderCell (some (.str s))
        = (if s.contains ',' then quoteChar :: s ++ [quoteChar] else s) from rfl] at hc
    split at hc
    · rw [show (quoteChar :: s ++ [quoteChar] : Str)
          = (quoteChar :: s) ++ [quoteChar] from rfl, List.getLast?_concat] at hc
      have : quoteChar = c := by simpa using hc
      rw [← this]
      decide
    · exact (noWsEnds_facts h2).2 c hc

/-- Unpacking of the key goodness predicate. -/
theorem goodKey_facts {k : Str} (h : goodKey k = true) :
    k ≠ [] ∧ noWsEnds k = true ∧ ',' ∉ k ∧ quoteChar ∉ k ∧ '\n' ∉ k := by
  simp only [goodKey, Bool.and_eq_true] at h
  obtain ⟨⟨⟨⟨h1, h2⟩, h3⟩, h4⟩, h5⟩ := h
  exact ⟨by simpa using h1, h2, by simpa using h3, by simpa using h4,
    by simpa using h5⟩

/-- Mapping a function that fixes every element is the identity (generic). -/
theorem list_map_fix {α : Type} (f : α → α) :
    ∀ (l : List α), (∀ x ∈ l, f x = x) → l.map f = l := by
  intro l
  induction l with
  | nil => intro _; rfl
  | cons x t ih =>
    intro h
    rw [List.map_cons, h x (List.mem_cons_self _ _),
      ih (fun y hy => h y (List.mem_cons_of_mem _ hy))]

/-- A pointwise relation between two images lifts to `Forall₂`. -/
theorem forall₂_map_pair {α : Type} {R : Str → Str → Prop} (f g : α → Str) :
    ∀ (l : List α), (∀ x ∈ l, R (f x) (g x)) →
      List.Forall₂ R (l.map f) (l.map g) := by
  intro l
  induction l with
  | nil => intro _; exact List.Forall₂.nil
  | cons x t ih =>
    intro h
    exact List.Forall₂.cons (h x (List.mem_cons_self _ _))
      (ih (fun y hy => h y (List.mem_cons_of_mem _ hy)))

/-- A reflexive pointwise fact lifts to `Forall₂` on the diagonal. -/
theorem forall₂_refl_of {R : Str → Str → Prop} :
    ∀ (l : List Str), (∀ x ∈ l, R x x) → List.Forall₂ R l l := by
  intro l
  induction l with
  | nil => intro _; exact List.Forall₂.nil
  | cons x t ih =>
    intro h
    exact List.Forall₂.cons (h x (List.mem_cons_self _ _))
      (ih (fun y hy => h y (List.mem_cons_of_mem _ hy)))

/-- Joining a nonempty first chunk yields a nonempty string. -/
theorem joinSep_ne_nil {sep : Char} {l : Str} (ls : List Str) (hl : l ≠ []) :
    joinSep sep (l :: ls) ≠ [] := by
  cases ls with
  | nil => exact hl
  | cons l2 more =>
    show l ++ sep :: joinSep sep (l2 :: more) ≠ []
    intro h
    exact List.cons_ne_nil _ _ (List.append_eq_nil.mp h).2

/-- With a non-whitespace separator, a join of chunks none of which ends in
whitespace does not end in whitespace. -/
theorem joinSep_last_not_ws_sep {sep : Char} (hsep : jsWhitespace sep = false) :
    ∀ (ls : List Str),
      (∀ l ∈ ls, ∀ c, l.getLast? = some c → jsWhitespace c = false) →
      ∀ c, (joinSep sep ls).getLast? = some c → jsWhitespace c = false := by
  intro ls
  induction ls with
  | nil => intro _ c h; exact Option.noConfusion h
  | cons l rest ih =>
    intro hc c h
    cases rest with
    | nil => exact hc l (List.mem_cons_self _ _) c h
    | cons l2 more =>
      rw [show joinSep sep (l :: l2 :: more)
          = l ++ sep :: joinSep sep (l2 :: more) from rfl] at h
      cases hJ : joinSep sep (l2 :: more) with
      | nil =>
        rw [hJ, List.getLast?_append_of_ne_nil _ (List.cons_ne_nil _ _)] at h
        have hcs : sep = c := by simpa using h
        rw [← hcs]
        exact hsep
      | cons x xs =>
        rw [hJ, List.getLast?_append_of_ne_nil _ (List.cons_ne_nil _ _),
          List.getLast?_cons_cons] at h
        exact ih (fun l' hl' c' hc' => hc l' (List.mem_cons_of_mem _ hl') c' hc')
          c (by rw [hJ]; exact h)

/-- With any separator, a join of chunks none of which ends in whitespace and
whose last chunk is nonempty does not end in whitespace. -/
theorem joinSep_last_not_ws_strict {sep : Char} :
    ∀ (ls : List Str),
      (∀ l ∈ ls, ∀ c, l.getLast? = some c → jsWhitespace c = false) →
      (∀ l, ls.getLast? = some l → l ≠ []) →
      ∀ c, (joinSep sep ls).getLast? = some c → jsWhitespace c = false := by
  intro ls
  induction ls with
  | nil => intro _ _ c h; exact Option.noConfusion h
  | cons l rest ih =>
    intro hc hl c h
    cases rest with
    | nil => exact hc l (List.mem_cons_self _ _) c h
    | cons l2 more =>
      rw [show joinSep sep (l :: l2 :: more)
          = l ++ sep :: joinSep sep (l2 :: more) from rfl] at h
      cases hJ : joinSep sep (l2 :: more) with
      | nil =>
        exfalso
        cases more with
        | nil => exact hl l2 rfl hJ
        | cons l3 even =>
          have h2 : l2 ++ sep :: joinSep sep (l3 :: even) = [] := hJ
          exact List.cons_ne_nil _ _ (List.append_eq_nil.mp h2).2
      | cons x xs =>
        rw [hJ, List.getLast?_append_of_ne_nil _ (List.cons_ne_nil _ _),
          List.getLast?_cons_cons] at h
        exact ih (fun l' hl' c' hc' => hc l' (List.mem_cons_of_mem _ hl') c' hc')
          (fun l' hl' => hl l' (by rw [List.getLast?_cons_cons]; exact hl'))
          c (by rw [hJ]; exact h)

/-- The header line is nonempty and does not start with whitespace. -/
theorem headerLine_facts {headers : List Str} (hnil : headers ≠ [])
    (hkeys : ∀ k ∈ headers, goodKey k = true) :
    joinSep ',' headers ≠ []
    ∧ (∀ c, (joinSep ',' headers).head? = some c → jsWhitespace c = false) := by
  cases headers with
  | nil => exact absurd rfl hnil
  | cons k1 krest =>
    have hk1 := goodKey_facts (hkeys k1 (List.mem_cons_self _ _))
    constructor
    · exact joinSep_ne_nil krest hk1.1
    · intro c hc
      rw [joinSep_head krest hk1.1] at hc
      exact (noWsEnds_facts hk1.2.1).1 c hc

/-- The header line does not end in whitespace. -/
theorem headerLine_last_not_ws {headers : List Str}
    (hkeys : ∀ k ∈ headers, goodKey k = true) :
    ∀ c, (joinSep ',' headers).getLast? = some c → jsWhitespace c = false := by
  refine joinSep_last_not_ws_sep (by decide) headers ?_
  intro k hk c hc
  exact (noWsEnds_facts (goodKey_facts (hkeys k hk)).2.1).2 c hc

/-- A rendered row contains no newline. -/
theorem renderRow_no_nl {headers : List Str} {r : CSVRecord}
    (hr : r.map Prod.fst = headers)
    (hv : ∀ p ∈ r, goodVal p.2 = true) :
    '\n' ∉ renderRow headers r := by
  intro hm
  rcases mem_joinSep (show '\n'
      ∈ joinSep ',' (headers.map (fun h => renderCell (r.lookup h))) from hm)
    with he | ⟨cell, hcell, hc⟩
  · exact absurd he (by decide)
  · rcases List.mem_map.mp hcell with ⟨h, hh, rfl⟩
    obtain ⟨v, hlk, hmem⟩ := lookup_of_mem_keys r h (by rw [hr]; exact hh)
    rw [hlk] at hc
    exact renderCell_no_nl (hv (h, v) hmem) hc

/-- A rendered row does not end in whitespace. -/
theorem renderRow_last_not_ws {headers : List Str} {r : CSVRecord}
    (hr : r.map Prod.fst = headers)
    (hv : ∀ p ∈ r, goodVal p.2 = true) :
    ∀ c, (renderRow headers r).getLast? = some c → jsWhitespace c = false := by
  intro c hc
  have hc' : (joinSep ','
      (headers.map (fun h => renderCell (r.lookup h)))).getLast? = some c := hc
  refine joinSep_last_not_ws_sep (by decide) _ ?_ c hc'
  intro cell hcell c' hc2
  rcases List.mem_map.mp hcell with ⟨h, hh, rfl⟩
  obtain ⟨v, hlk, hmem⟩ := lookup_of_mem_keys r h (by rw [hr]; exact hh)
  rw [hlk] at hc2
  exact renderCell_last_not_ws (hv (h, v) hmem) c' hc2

/-- Scanning the rendered header line recovers the keys. -/
theorem parse_header_line {headers : List Str} (hnil : headers ≠ [])
    (hkeys : ∀ k ∈ headers, goodKey k = true) :
    parseCSVLine (joinSep ',' headers) = headers := by
  have hf2 : List.Forall₂ CellOK headers headers := by
    refine forall₂_refl_of headers ?_
    intro k hk
    obtain ⟨h1, h2, h3, h4, h5⟩ := goodKey_facts (hkeys k hk)
    exact Or.inl ⟨rfl, h4, h3⟩
  show csvLineGo (joinSep ',' headers) false [] = headers
  rw [scan_cells hf2 []]
  cases headers with
  | nil => exact absurd rfl hnil
  | cons k1 krest =>
    show jsTrim ([] ++ k1) :: krest.map jsTrim = k1 :: krest
    rw [List.nil_append]
    have htr : ∀ k, k ∈ (k1 :: krest) → jsTrim k = k := by
      intro k hk
      have h := noWsEnds_facts (goodKey_facts (hkeys k hk)).2.1
      exact jsTrim_eq_self_of_ends h.1 h.2
    rw [htr k1 (List.mem_cons_self _ _),
      list_map_fix jsTrim krest (fun k hk => htr k (List.mem_cons_of_mem _ hk))]

/-- Rendering one record as a line and scanning it back reproduces the
record, given distinct headers and good values. -/
theorem row_roundtrip {headers : List Str} {r : CSVRecord}
    (hr : r.map Prod.fst = headers) (hnd : headers.Nodup)
    (hnil : headers ≠ [])
    (hv : ∀ p ∈ r, goodVal p.2 = true) :
    rowOf headers (parseCSVLine (renderRow headers r)) [] = r := by
  have hcellok : ∀ h ∈ headers,
      CellOK (renderCell (r.lookup h)) (cellContent (r.lookup h)) := by
    intro h hh
    obtain ⟨v, hlk, hmem⟩ := lookup_of_mem_keys r h (by rw [hr]; exact hh)
    rw [hlk]
    exact renderCell_ok (hv (h, v) hmem)
  have hparse : parseCSVLine (renderRow headers r)
      = headers.map (fun h => jsTrim (cellContent (r.lookup h))) := by
    show csvLineGo
        (joinSep ',' (headers.map (fun h => renderCell (r.lookup h)))) false []
      = headers.map (fun h => jsTrim (cellContent (r.lookup h)))
    rw [scan_cells (forall₂_map_pair (fun h => renderCell (r.lookup h))
      (fun h => cellContent (r.lookup h)) headers hcellok) []]
    cases headers with
    | nil => exact absurd rfl hnil
    | cons h1 hrest =>
      show jsTrim ([] ++ cellContent (r.lookup h1))
          :: (hrest.map (fun h => cellContent (r.lookup h))).map jsTrim
        = jsTrim (cellContent (r.lookup h1))
          :: hrest.map (fun h => jsTrim (cellContent (r.lookup h)))
      rw [List.nil_append, List.map_map]
      rfl
  rw [hparse,
    rowOf_eq_zipRow headers
      (headers.map (fun h => jsTrim (cellContent (r.lookup h)))) [] hnd
      (fun p hp => absurd hp (List.not_mem_nil p)),
    List.nil_append,
    zipRow_map (fun h => jsTrim (cellContent (r.lookup h))) headers,
    ← hr]
  exact lookup_rebuild r (by rw [hr]; exact hnd)
    (fun p hp => coerce_back_trim (hv p hp))

/-- C5 counterexample: a single record whose only value is null exports to
the text "a\n"; re-parsing that text trims away the trailing newline and the
empty final line, leaving a header line only and hence zero records, so the
round trip loses the record. -/
theorem exportToCSV_trailing_null_cex :
    exportToCSVText [[("a".toList, Scalar.null)]] = some "a\n".toList
    ∧ parseCSV "a\n".toList = ([] : List CSVRecord)
    ∧ ([] : List CSVRecord) ≠ [[("a".toList, Scalar.null)]] :=
  ⟨rfl, rfl, fun h => List.noConfusion h⟩

/-- C5 (amended): for a nonempty dataset in which every record carries the
same nonempty duplicate-free list of well-formed keys, every value is null,
a finite number with terminating decimal expansion, or a well-formed string,
and the final record renders to a nonempty line, `exportToCSV` produces a
text that `parseCSV` maps back to exactly the original records — null and
empty cells coincide, quoted commas survive, and numeric cells coerce back
to the same numbers. -/
theorem exportToCSV_parseCSV_round
    (data : List CSVRecord) (headers : List Str)
    (hne : data ≠ [])
    (hhd : ∀ r ∈ data, r.map Prod.fst = headers)
    (hnil : headers ≠ [])
    (hnd : headers.Nodup)
    (hkeys : ∀ k ∈ headers, goodKey k = true)
    (hvals : ∀ r ∈ data, ∀ p ∈ r, goodVal p.2 = true)
    (hlastrow : ∀ r, data.getLast? = some r → renderRow headers r ≠ []) :
    ∃ text, exportToCSVText data = some text ∧ parseCSV text = data := by
  cases data with
  | nil => exact absurd rfl hne
  | cons first rest =>
  refine ⟨joinSep '\n'
    (joinSep ',' headers :: (first :: rest).map (renderRow headers)), ?_, ?_⟩
  · show some (joinSep '\n' (joinSep ',' (first.map Prod.fst)
        :: (first :: rest).map (renderRow (first.map Prod.fst))))
      = some (joinSep '\n'
        (joinSep ',' headers :: (first :: rest).map (renderRow headers)))
    rw [hhd first (List.mem_cons_self _ _)]
  · have hLfacts := headerLine_facts hnil hkeys
    have hlines_no_nl : ∀ l ∈ (joinSep ',' headers
        :: (first :: rest).map (renderRow headers)), '\n' ∉ l := by
      intro l hl
      rcases List.mem_cons.mp hl with rfl | hl
      · intro hm
        rcases mem_joinSep hm with he | ⟨k, hk, hck⟩
        · exact absurd he (by decide)
        · exact (goodKey_facts (hkeys k hk)).2.2.2.2 hck
      · rcases List.mem_map.mp hl with ⟨r, hrmem, rfl⟩
        exact renderRow_no_nl (hhd r hrmem) (hvals r hrmem)
    have htrim : jsTrim (joinSep '\n'
        (joinSep ',' headers :: (first :: rest).map (renderRow headers)))
        = joinSep '\n'
          (joinSep ',' headers :: (first :: rest).map (renderRow headers)) := by
      apply jsTrim_eq_self_of_ends
      · intro c hc
        rw [joinSep_head _ hLfacts.1] at hc
        exact hLfacts.2 c hc
      · refine joinSep_last_not_ws_strict _ ?_ ?_
        · intro l hl c hc
          rcases List.mem_cons.mp hl with rfl | hl
          · exact headerLine_last_not_ws hkeys c hc
          · rcases List.mem_map.mp hl with ⟨r, hrmem, rfl⟩
            exact renderRow_last_not_ws (hhd r hrmem) (hvals r hrmem) c hc
        · intro l hl
          have h1 : (joinSep ',' headers
              :: (first :: rest).map (renderRow headers)).getLast?
              = ((first :: rest).map (renderRow headers)).getLast? := by
            show (joinSep ',' headers :: renderRow headers first
                :: rest.map (renderRow headers)).getLast?
              = (renderRow headers first :: rest.map (renderRow headers)).getLast?
            exact List.getLast?_cons_cons
          rw [h1, List.getLast?_map] at hl
          rcases Option.map_eq_some'.mp hl with ⟨r, hr1, hr2⟩
          rw [← hr2]
          exact hlastrow r hr1
    show (match splitOnChar '\n' (jsTrim (joinSep '\n'
        (joinSep ',' headers :: (first :: rest).map (renderRow headers)))) with
      | [] => ([] : List CSVRecord)
      | headerLine :: rest' =>
        rest'.map (fun line =>
          rowOf (parseCSVLine headerLine) (parseCSVLine line) []))
      = first :: rest
    rw [htrim, splitOnChar_joinSep '\n'
      (joinSep ',' headers :: (first :: rest).map (renderRow headers))
      (List.cons_ne_nil _ _) hlines_no_nl]
    show ((first :: rest).map (renderRow headers)).map
        (fun line => rowOf (parseCSVLine (joinSep ',' headers))
          (parseCSVLine line) [])
      = first :: rest
    rw [parse_header_line hnil hkeys, List.map_map]
    exact list_map_fix _ (first :: rest)
      (fun r hr => row_roundtrip (hhd r hr) hnd hnil (hvals r hr))

/-- Concrete dataset exercising the round trip: a quoted comma-bearing
string, a null cell, and plain strings. -/
def roundTripData : List CSVRecord :=
  [[("a".toList, Scalar.str "x,y".toList), ("b".toList, Scalar.null)],
   [("a".toList, Scalar.str "z".toList), ("b".toList, Scalar.str "w".toList)]]

theorem exportToCSV_parseCSV_round_witness :
    ∃ text, exportToCSVText roundTripData = some text
      ∧ parseCSV text = roundTripData :=
  exportToCSV_parseCSV_round roundTripData ["a".toList, "b".toList]
    (List.cons_ne_nil _ _) (by decide) (List.cons_ne_nil _ _) (by decide)
    (by decide) (by decide)
    (by
      intro r hr
      rw [← Option.some.inj hr]
      decide)
